import Mathlib

/-!
Verification of the half-edge topology engine of `scene_subdiv_mesh.cpp`
(Embree subdivision meshes).

The model is a shallow embedding of `SubdivMesh::Topology::calculateHalfEdges`,
`updateHalfEdges`, `initializeHalfEdgeStructures` and `verify`.  Machine floats
carrying crease weights and tessellation levels are modelled by `Weight`
(a rational or the distinguished infinity; the code never performs arithmetic
on them in the modelled paths, it only stores, looks up and compares them) and
by `ℚ`.  The parallel loops of the source are data-parallel with disjoint
footprints (or, for the link loop, explicit run-ownership), so they are
modelled by their sequential semantics.  Functions declared in the repository
headers (not part of the translated source) are modelled from the spec and
marked as such.
-/

namespace EmbreeSubdiv

/-- Crease weight / tessellation level value: a float that is either finite
(modelled as a rational) or the infinity the code writes as `float(inf)`. -/
inductive Weight where
  | fin (w : ℚ)
  | inf
deriving DecidableEq, Repr

/-- Patch classification tags of `HalfEdge::PatchType`. -/
inductive PatchType where
  | COMPLEX_PATCH
  | REGULAR_QUAD_PATCH
  | IRREGULAR_QUAD_PATCH
  | BILINEAR_PATCH
deriving DecidableEq, Repr

/-- Vertex classification tags of `HalfEdge::VertexType` used by this file. -/
inductive VertexType where
  | REGULAR_VERTEX
  | NON_MANIFOLD_EDGE_VERTEX
deriving DecidableEq, Repr

/-- Per-slot boundary handling mode (`RTCSubdivisionMode`). -/
inductive SubdivMode where
  | SMOOTH_BOUNDARY
  | PIN_CORNERS
  | PIN_BOUNDARY
  | PIN_ALL
deriving DecidableEq, Repr

/-- One half-edge record.  The struct layout is declared in the repository
header; the fields and their meaning are exactly those the translated source
reads and writes (`vtx_index`, the three signed offsets, the two crease
weights, the tessellation level and the two classification tags). -/
structure HalfEdge where
  vtx_index : Nat
  next_half_edge_ofs : Int
  prev_half_edge_ofs : Int
  opposite_half_edge_ofs : Int
  edge_crease_weight : Weight
  vertex_crease_weight : Weight
  edge_level : ℚ
  patch_type : PatchType
  vertex_type : VertexType
deriving DecidableEq, Repr

instance : Inhabited HalfEdge :=
  ⟨⟨0, 0, 0, 0, .fin 0, .fin 0, 0, .COMPLEX_PATCH, .REGULAR_VERTEX⟩⟩

/-- Canonical undirected edge key, mirroring `pair64` of the source: swap the
operands so the larger vertex id occupies the high 32 bits, then pack both
ids into a single 64-bit comparable value. -/
def pair64 (x y : Nat) : Nat :=
  if x < y then 2 ^ 32 * y + x else 2 ^ 32 * x + y

/-- The sentinel key assigned to half-edges of hole faces
(`std::numeric_limits of uint64_t, max`). -/
def SENTINEL : Nat := 2 ^ 64 - 1

/-- The read-only inputs of one topology slot at commit time: the per-face
valences, this slot's vertex indices, slot 0's vertex indices (always used for
crease lookups), the two crease registries, the hole set, the optional level
buffer with the mesh-wide fallback rate, and the slot's boundary mode.
The crease registries and the hole set are modelled from the spec
(their classes live in the repository headers): order-independent key-to-weight
mappings with a total `lookup(key, default)`, and a face-id membership set. -/
structure TopoInput where
  faceVertices : List Nat
  vertexIndices : List Nat
  vertexIndices0 : List Nat
  edgeCreaseMap : List (Nat × Weight)
  vertexCreaseMap : List (Nat × Weight)
  holeSet : List Nat
  levels : Option (List ℚ)
  tessellationRate : ℚ
  subdiv_mode : SubdivMode
deriving DecidableEq, Repr

/-- Modelled from the spec: registry `lookup(key, default)` is total and
returns the stored weight when the key is present, the default otherwise. -/
def mapLookup (m : List (Nat × Weight)) (k : Nat) (d : Weight) : Weight :=
  match m.find? (fun kv => kv.1 == k) with
  | some kv => kv.2
  | none => d

/-- Modelled from the spec: hole-set membership; absent keys are not holes. -/
def holeMem (hs : List Nat) (f : Nat) : Bool := hs.contains f

/-- Modelled from the spec: `getEdgeLevel` reads the per-edge level buffer, or
falls back to the mesh-wide tessellation rate when the buffer is absent. -/
def getEdgeLevel (inp : TopoInput) (i : Nat) : ℚ :=
  match inp.levels with
  | some L => L.getD i inp.tessellationRate
  | none => inp.tessellationRate

/-- Number of faces (`numFaces`, the length of the valence buffer). -/
def numFaces (inp : TopoInput) : Nat := inp.faceVertices.length

/-- Valence of face `f` (the `faceVertices` buffer entry). -/
def valence (inp : TopoInput) (f : Nat) : Nat := inp.faceVertices.getD f 0

/-- `faceStartEdge`: the exclusive prefix sum of the valences, i.e. the
half-edge array offset where the given face's edges begin. -/
def faceStartEdge (vals : List Nat) (f : Nat) : Nat := (vals.take f).sum

/-- `numHalfEdges`: the total half-edge count, the sum of all valences. -/
def numHalfEdges (inp : TopoInput) : Nat := inp.faceVertices.sum

/-- Locate the (face, corner) pair owning a global half-edge position:
the inverse of `faceStartEdge` plus corner. -/
def posFace : List Nat → Nat → Nat × Nat
  | [], p => (0, p)
  | v :: rest, p =>
      if p < v then (0, p)
      else ((posFace rest (p - v)).1 + 1, (posFace rest (p - v)).2)

/-- The face owning global half-edge position `p`. -/
def faceOfPos (inp : TopoInput) (p : Nat) : Nat := (posFace inp.faceVertices p).1

/-- The `next` offset the builder stores at corner `de` of a face of valence
`N`: `+1`, or `-(N-1)` at the last corner. -/
def nextOfsAt (N de : Nat) : Int :=
  if de = N - 1 then -((N - 1 : Nat) : Int) else 1

/-- The `prev` offset the builder stores at corner `de` of a face of valence
`N`: `-1`, or `+(N-1)` at the first corner. -/
def prevOfsAt (N de : Nat) : Int :=
  if de = 0 then ((N - 1 : Nat) : Int) else -1

/-- The global position `e+de+nextOfs` of the corner following corner `de` of
the face starting at `e` (the index the builder reads the end vertex from). -/
def cornerNextIndex (e N de : Nat) : Nat :=
  (((e + de : Nat) : Int) + nextOfsAt N de).toNat

/-- The half-edge record the builder's per-face emission pass writes at global
position `p`: the slot's start vertex, the next/prev offsets, no opposite,
crease weights looked up in the registries keyed on slot-0 ids (the source
always uses the geometry topology for crease lookups), the tessellation level,
`COMPLEX_PATCH` as the provisional patch type and a regular vertex type. -/
def edgeAt (inp : TopoInput) (p : Nat) : HalfEdge :=
  let fd := posFace inp.faceVertices p
  let N := valence inp fd.1
  let e := faceStartEdge inp.faceVertices fd.1
  let startVertex0 := inp.vertexIndices0.getD (e + fd.2) 0
  let endVertex0 := inp.vertexIndices0.getD (cornerNextIndex e N fd.2) 0
  { vtx_index := inp.vertexIndices.getD (e + fd.2) 0
    next_half_edge_ofs := nextOfsAt N fd.2
    prev_half_edge_ofs := prevOfsAt N fd.2
    opposite_half_edge_ofs := 0
    edge_crease_weight := mapLookup inp.edgeCreaseMap (pair64 startVertex0 endVertex0) (.fin 0)
    vertex_crease_weight := mapLookup inp.vertexCreaseMap startVertex0 (.fin 0)
    edge_level := getEdgeLevel inp p
    patch_type := .COMPLEX_PATCH
    vertex_type := .REGULAR_VERTEX }

/-- The undirected-edge key the emission pass files position `p` under: the
sentinel for hole faces (so they never pair), otherwise `pair64` of this
slot's start and end vertex ids. -/
def keyAt (inp : TopoInput) (p : Nat) : Nat :=
  let fd := posFace inp.faceVertices p
  if holeMem inp.holeSet fd.1 then SENTINEL
  else
    let N := valence inp fd.1
    let e := faceStartEdge inp.faceVertices fd.1
    pair64 (inp.vertexIndices.getD (e + fd.2) 0)
      (inp.vertexIndices.getD (cornerNextIndex e N fd.2) 0)

/-- The freshly emitted half-edge array (`halfEdges` after the first
parallel_for): one record per global position. -/
def emitMesh (inp : TopoInput) : List HalfEdge :=
  (List.range (numHalfEdges inp)).map (edgeAt inp)

/-- The keyed array `halfEdges1` after emission: one (key, position) pair per
half-edge (positions stand for the edge pointers of the source). -/
def keyedEdges (inp : TopoInput) : List (Nat × Nat) :=
  (List.range (numHalfEdges inp)).map (fun p => (keyAt inp p, p))

/-- Sorted insertion by key, the building block modelling the key sort. -/
def insertByKey (x : Nat × Nat) : List (Nat × Nat) → List (Nat × Nat)
  | [] => [x]
  | y :: ys => if x.1 ≤ y.1 then x :: y :: ys else y :: insertByKey x ys

/-- The key sort (`radix_sort_u64`): produces the (key, position) pairs in
non-decreasing key order, bringing all pairs sharing a key into contiguous
runs. -/
def sortKeyed : List (Nat × Nat) → List (Nat × Nat)
  | [] => []
  | x :: xs => insertByKey x (sortKeyed xs)

/-- Array read `halfEdges[i]` (out-of-range reads yield the default record;
all verified paths stay in range). -/
def hget (A : List HalfEdge) (i : Nat) : HalfEdge := A.getD i default

/-- Modelled from the spec: `HalfEdge::next()` follows the signed next offset
within the same contiguous array, yielding the next half-edge's index. -/
def nextIndex (A : List HalfEdge) (i : Nat) : Nat :=
  ((i : Int) + (hget A i).next_half_edge_ofs).toNat

/-- Modelled from the spec: a half-edge has an opposite iff its opposite
offset is set (nonzero); it is unset (zero) for boundary and crease edges. -/
def hasOpposite (e : HalfEdge) : Bool := e.opposite_half_edge_ofs != 0

/-- Write `edge_crease_weight = inf` at index `i` (the boundary/mismatch
branch of the link loop). -/
def setEdgeCreaseInf (A : List HalfEdge) (i : Nat) : List HalfEdge :=
  A.set i { hget A i with edge_crease_weight := .inf }

/-- The non-manifold pinning writes of the link loop at one index: infinite
vertex crease weight, non-manifold vertex type, infinite edge crease weight. -/
def markNonManifold (A : List HalfEdge) (i : Nat) : List HalfEdge :=
  A.set i { hget A i with
              vertex_crease_weight := .inf
              vertex_type := .NON_MANIFOLD_EDGE_VERTEX
              edge_crease_weight := .inf }

/-- Modelled from the spec: `setOpposite` stores the offset of the opposite
half-edge on the neighboring face (the index difference in the shared
array). -/
def setOppositeAt (A : List HalfEdge) (i j : Nat) : List HalfEdge :=
  A.set i { hget A i with opposite_half_edge_ofs := (j : Int) - (i : Int) }

/-- The winding test of the link loop for a run of two: the `next` vertex id
of the first half-edge differs from the origin vertex id of the second. -/
def windingMismatch (A : List HalfEdge) (i j : Nat) : Bool :=
  (hget A (nextIndex A i)).vtx_index != (hget A j).vtx_index

/-- The non-manifold sweep over a run: every member and its `next` half-edge
are pinned (the inner loop of the run length above 2 branch). -/
def mnmFold (B : List HalfEdge) (run : List Nat) : List HalfEdge :=
  run.foldl (fun C i => markNonManifold (markNonManifold C i) (nextIndex C i)) B

/-- Process one run of half-edges sharing a key, exactly as the link loop
does: run length 1 is a border (infinite edge crease weight), run length 2
either a winding mismatch (both weights infinite) or a mutual opposite link,
and longer runs are non-manifold (each member and its `next` get infinite
vertex and edge crease weights and the non-manifold vertex type). -/
def processRun (A : List HalfEdge) (run : List Nat) : List HalfEdge :=
  match run with
  | [i] => setEdgeCreaseInf A i
  | [i, j] =>
      if windingMismatch A i j then setEdgeCreaseInf (setEdgeCreaseInf A i) j
      else setOppositeAt (setOppositeAt A i j) j i
  | _ => mnmFold A run

/-- Group the sorted keyed array into its maximal runs of consecutive equal
keys (the run discovery of the link loop). -/
def groupRuns : List (Nat × Nat) → List (Nat × List Nat)
  | [] => []
  | x :: rest =>
      match groupRuns rest with
      | [] => [(x.1, [x.2])]
      | (k1, r1) :: rs =>
          if x.1 = k1 then (k1, x.2 :: r1) :: rs
          else (x.1, [x.2]) :: (k1, r1) :: rs

/-- Run the link loop over the grouped runs in sorted order, stopping at the
first sentinel key (the loop breaks on the hole sentinel, which sorts last). -/
def linkRuns (A : List HalfEdge) : List (Nat × List Nat) → List HalfEdge
  | [] => A
  | (k, run) :: rest =>
      if k = SENTINEL then A else linkRuns (processRun A run) rest

/-- The whole link phase: sort the keyed array, then process every run. -/
def linkPhase (inp : TopoInput) (A : List HalfEdge) : List HalfEdge :=
  linkRuns A (groupRuns (sortKeyed (keyedEdges inp)))

/-- External classification callbacks declared in the repository header and
modelled from the spec: corner detection and border detection for pinning
(both depend only on the adjacency already linked when they run), and the
per-face patch classification computed from the pinned state. -/
structure ExternalFns where
  isCornerP : Nat → Bool
  borderP : Nat → Bool
  patchTypeP : List HalfEdge → Nat → PatchType

/-- The per-half-edge pinning of the classification pass, exactly the chain
of the source: pin-corners pins detected corner vertices, pin-boundary pins
border vertices, pin-all pins every edge and vertex. -/
def pinEdge (mode : SubdivMode) (isCornerP borderP : Nat → Bool) (i : Nat) (e : HalfEdge) :
    HalfEdge :=
  if mode = SubdivMode.PIN_CORNERS ∧ isCornerP i then
    { e with vertex_crease_weight := .inf }
  else if mode = SubdivMode.PIN_BOUNDARY ∧ borderP i then
    { e with vertex_crease_weight := .inf }
  else if mode = SubdivMode.PIN_ALL then
    { e with edge_crease_weight := .inf, vertex_crease_weight := .inf }
  else e

/-- The pinning pass applied to the whole array (each face's loop visits each
of its half-edges exactly once, so this is a per-position map). -/
def pinPhase (inp : TopoInput) (ext : ExternalFns) (A : List HalfEdge) : List HalfEdge :=
  (List.range A.length).map
    (fun i => pinEdge inp.subdiv_mode ext.isCornerP ext.borderP i (hget A i))

/-- The view of the array the patch classifier reads.  Modelled from the
spec: classification is a single per-face value derived from valences,
adjacency and crease weights after pinning; it reads neither the provisional
patch tags nor the tessellation levels, so those are erased from the view. -/
def patchView (A : List HalfEdge) : List HalfEdge :=
  A.map (fun e => { e with patch_type := .COMPLEX_PATCH, edge_level := 0 })

/-- Stamp the per-face patch classification onto every half-edge of the face
(computed last, after all pinning, as the source requires). -/
def stampPatches (inp : TopoInput) (patchTypeP : List HalfEdge → Nat → PatchType)
    (A : List HalfEdge) : List HalfEdge :=
  (List.range A.length).map
    (fun i => { hget A i with patch_type := patchTypeP (patchView A) (faceOfPos inp i) })

/-- The full builder `calculateHalfEdges`: emission, key sort, link loop,
pinning, patch stamping. -/
def calculateHalfEdges (inp : TopoInput) (ext : ExternalFns) : List HalfEdge :=
  stampPatches inp ext.patchTypeP (pinPhase inp ext (linkPhase inp (emitMesh inp)))

/-- The per-(face, time step) invalid flag computed while building slot 0:
the face fails the vertex validity test for that time step, or it is a hole.
The vertex validity test (`HalfEdge::valid` over the vertex buffer) lives in
the repository header and is abstracted as the predicate `validP`. -/
def invalidFace (inp : TopoInput) (validP : Nat → Nat → Bool) (f t : Nat) : Bool :=
  !(validP f t) || holeMem inp.holeSet f

/-- The three update decisions computed at the top of `updateHalfEdges`. -/
structure UpdateFlags where
  updateEdgeCreases : Bool
  updateVertexCreases : Bool
  updateLevels : Bool
deriving DecidableEq, Repr

/-- Modelled from the spec: `getEdge` of a slot-0 half-edge, the canonical
key of its undirected edge (origin vertex paired with the next's origin). -/
def geomEdgeKey (A0 : List HalfEdge) (i : Nat) : Nat :=
  pair64 (hget A0 i).vtx_index (hget A0 (nextIndex A0 i)).vtx_index

/-- The per-half-edge body of the updater: recompute the tessellation level
when levels changed; recompute the edge crease weight from the registry only
when the half-edge has an opposite; when vertex creases changed and the
vertex is not non-manifold, recompute the vertex crease weight and re-apply
the slot's pinning mode.  `A0` is slot 0's half-edge array
(`halfEdgesGeom`), always used for the crease lookups. -/
def updateEdgeFields (inp : TopoInput) (u : UpdateFlags) (ext : ExternalFns)
    (A0 : List HalfEdge) (i : Nat) (e0 : HalfEdge) : HalfEdge :=
  let e1 := if u.updateLevels then { e0 with edge_level := getEdgeLevel inp i } else e0
  let e2 :=
    if u.updateEdgeCreases ∧ hasOpposite e1 then
      { e1 with edge_crease_weight := mapLookup inp.edgeCreaseMap (geomEdgeKey A0 i) (.fin 0) }
    else e1
  if u.updateVertexCreases ∧ e2.vertex_type ≠ VertexType.NON_MANIFOLD_EDGE_VERTEX then
    pinEdge inp.subdiv_mode ext.isCornerP ext.borderP i
      { e2 with vertex_crease_weight :=
                  mapLookup inp.vertexCreaseMap (hget A0 i).vtx_index (.fin 0) }
  else e2

/-- The weight/level part of the updater applied to the whole array. -/
def updateWeights (inp : TopoInput) (u : UpdateFlags) (ext : ExternalFns)
    (A0 A : List HalfEdge) : List HalfEdge :=
  (List.range A.length).map (fun i => updateEdgeFields inp u ext A0 i (hget A i))

/-- The full updater `updateHalfEdges`: per-half-edge weight/level refresh,
then (only when a crease class changed) the patch classification refresh. -/
def updateHalfEdges (inp : TopoInput) (u : UpdateFlags) (ext : ExternalFns)
    (A0 A : List HalfEdge) : List HalfEdge :=
  let W := updateWeights inp u ext A0 A
  if u.updateEdgeCreases ∨ u.updateVertexCreases then stampPatches inp ext.patchTypeP W
  else W

/-- The modified bits of the input buffers a commit observes, plus whether
this slot's index buffer is populated at all. -/
structure BufferFlags where
  thisIndicesPopulated : Bool
  thisIndicesModified : Bool
  faceVerticesModified : Bool
  holesModified : Bool
  slot0IndicesModified : Bool
  edgeCreasesModified : Bool
  edgeCreaseWeightsModified : Bool
  vertexCreasesModified : Bool
  vertexCreaseWeightsModified : Bool
  levelsModified : Bool
deriving DecidableEq, Repr

/-- What `initializeHalfEdgeStructures` decides to run for one slot. -/
inductive TopoAction where
  | runBuilder
  | runUpdater
  | noAction
deriving DecidableEq, Repr

/-- The coordinator decision of `Topology::initializeHalfEdgeStructures`:
ignore unpopulated slots; rebuild when this slot's indices, the valence
buffer or the hole buffer changed; otherwise update when slot-0 indices, any
crease buffer or the level buffer changed; otherwise do nothing. -/
def topologyCommitAction (b : BufferFlags) : TopoAction :=
  if !b.thisIndicesPopulated then .noAction
  else if b.thisIndicesModified || b.faceVerticesModified || b.holesModified then .runBuilder
  else if b.slot0IndicesModified || b.edgeCreasesModified || b.edgeCreaseWeightsModified ||
      b.vertexCreasesModified || b.vertexCreaseWeightsModified || b.levelsModified then
    .runUpdater
  else .noAction

/-- The update decisions `updateHalfEdges` derives from the modified bits. -/
def updateFlagsOf (b : BufferFlags) : UpdateFlags :=
  { updateEdgeCreases :=
      b.slot0IndicesModified || b.edgeCreasesModified || b.edgeCreaseWeightsModified
    updateVertexCreases :=
      b.slot0IndicesModified || b.vertexCreasesModified || b.vertexCreaseWeightsModified
    updateLevels := b.levelsModified }

/-- Modelled from the spec: `HalfEdge::prev()` follows the signed previous
offset within the same contiguous array. -/
def prevIndex (A : List HalfEdge) (i : Nat) : Nat :=
  ((i : Int) + (hget A i).prev_half_edge_ofs).toNat

/-- Modelled from the spec: `HalfEdge::opposite()` follows the signed
opposite offset within the same contiguous array. -/
def oppositeIndex (A : List HalfEdge) (i : Nat) : Nat :=
  ((i : Int) + (hget A i).opposite_half_edge_ofs).toNat

/-- The fields of a half-edge the link loop never writes. -/
def staticFields (e : HalfEdge) : Nat × Int × Int × ℚ × PatchType :=
  (e.vtx_index, e.next_half_edge_ofs, e.prev_half_edge_ofs, e.edge_level, e.patch_type)

/-- The positions filed under key `k`, in the order they occur in `l`. -/
def runOf (l : List (Nat × Nat)) (k : Nat) : List Nat :=
  (l.filter (fun x => x.1 == k)).map (fun x => x.2)

/-- The sorted keyed array of a slot. -/
def sortedKeyedOf (inp : TopoInput) : List (Nat × Nat) :=
  sortKeyed (keyedEdges inp)

/-- The run (in the sorted keyed array) that position `q` belongs to. -/
def runClassOf (inp : TopoInput) (q : Nat) : List Nat :=
  runOf (sortedKeyedOf inp) (keyAt inp q)

/-- Closed-form description of the opposite offset the link loop leaves at
position `q` of a manifold slot: only a matched run of two links opposites. -/
def oppSpec (inp : TopoInput) (q : Nat) : Int :=
  if keyAt inp q = SENTINEL then 0
  else
    match runClassOf inp q with
    | [p1, p2] =>
        if windingMismatch (emitMesh inp) p1 p2 then 0
        else if q = p1 then (p2 : Int) - (p1 : Int)
        else if q = p2 then (p1 : Int) - (p2 : Int)
        else 0
    | _ => 0

/-- Closed-form description of the edge crease weight the link loop leaves at
position `q` of a manifold slot: borders and winding mismatches become
infinite, matched pairs keep the authored lookup from emission. -/
def edgeWSpec (inp : TopoInput) (q : Nat) : Weight :=
  if keyAt inp q = SENTINEL then (edgeAt inp q).edge_crease_weight
  else
    match runClassOf inp q with
    | [_] => .inf
    | [p1, p2] =>
        if windingMismatch (emitMesh inp) p1 p2 then .inf
        else (edgeAt inp q).edge_crease_weight
    | _ => (edgeAt inp q).edge_crease_weight

/-- Trivial external callbacks used by the concrete witnesses. -/
def extTrivial : ExternalFns :=
  { isCornerP := fun _ => false
    borderP := fun _ => false
    patchTypeP := fun _ _ => .COMPLEX_PATCH }

/-- Witness mesh: two triangles sharing the edge (1,2) with consistent
winding, no creases, no holes. -/
def meshTwoTri : TopoInput :=
  { faceVertices := [3, 3]
    vertexIndices := [0, 1, 2, 2, 1, 3]
    vertexIndices0 := [0, 1, 2, 2, 1, 3]
    edgeCreaseMap := []
    vertexCreaseMap := []
    holeSet := []
    levels := none
    tessellationRate := 1
    subdiv_mode := .SMOOTH_BOUNDARY }

/-- Witness mesh: a single triangle, all edges boundary. -/
def meshTri : TopoInput :=
  { faceVertices := [3]
    vertexIndices := [0, 1, 2]
    vertexIndices0 := [0, 1, 2]
    edgeCreaseMap := []
    vertexCreaseMap := []
    holeSet := []
    levels := none
    tessellationRate := 1
    subdiv_mode := .SMOOTH_BOUNDARY }

/-- Counterexample mesh: a single triangle marked as a hole. -/
def meshTriHole : TopoInput :=
  { meshTri with holeSet := [0] }

/-- Witness mesh: three triangles all sharing the edge (0,1), each traversing
it in the same direction, so the edge is non-manifold. -/
def meshFan3 : TopoInput :=
  { faceVertices := [3, 3, 3]
    vertexIndices := [0, 1, 2, 0, 1, 3, 0, 1, 4]
    vertexIndices0 := [0, 1, 2, 0, 1, 3, 0, 1, 4]
    edgeCreaseMap := []
    vertexCreaseMap := []
    holeSet := []
    levels := none
    tessellationRate := 1
    subdiv_mode := .SMOOTH_BOUNDARY }

/-- Counterexample mesh: the two shared triangles under pin-all mode. -/
def meshTwoTriPinAll : TopoInput :=
  { meshTwoTri with subdiv_mode := .PIN_ALL }

/-- The same slot input with the crease registries and level inputs replaced:
the state a previous commit built from, sharing this commit's topology
buffers (the update path only runs when those did not change). -/
def withMaps (inp : TopoInput) (e v : List (Nat × Weight)) (l : Option (List ℚ))
    (r : ℚ) : TopoInput :=
  { inp with
    edgeCreaseMap := e
    vertexCreaseMap := v
    levels := l
    tessellationRate := r }

/-- Witness input for the updater: the two shared triangles with an authored
crease of weight 5/2 on the shared edge (1,2) (key `pair64 1 2`). -/
def meshTwoTriCrease : TopoInput :=
  { meshTwoTri with edgeCreaseMap := [(8589934593, .fin (5 / 2))] }

/-- The vertex-pinning hit test of the two partial pinning modes: pin-corners
pins detected corner vertices, pin-boundary pins border vertices. -/
def pinHit (mode : SubdivMode) (c b : Nat → Bool) (i : Nat) : Bool :=
  (decide (mode = SubdivMode.PIN_CORNERS) && c i) ||
  (decide (mode = SubdivMode.PIN_BOUNDARY) && b i)

/-- Nontrivial external callbacks for the updater witness: a corner detector
firing on even positions, a border detector firing on position 1, and a patch
classifier reading the array. -/
def extPin : ExternalFns :=
  { isCornerP := fun i => i % 2 == 0
    borderP := fun i => i == 1
    patchTypeP := fun A f =>
      if (hget A f).vtx_index == 0 then .REGULAR_QUAD_PATCH else .COMPLEX_PATCH }

/-- The creased two-triangle slot under pin-corners mode. -/
def meshTwoTriPinCorners : TopoInput :=
  { meshTwoTriCrease with subdiv_mode := .PIN_CORNERS }

/-- A one-record half-edge array: no opposite, finite crease weights,
regular vertex type. -/
def arrSingle : List HalfEdge :=
  [⟨5, 1, -1, 0, .fin 0, .fin 0, 1, .COMPLEX_PATCH, .REGULAR_VERTEX⟩]

/-- The inner walk of `Topology::verify`: for each face in turn, check that
every corner position is inside the index buffer and that the vertex id
stored there is below the vertex count, accumulating the face start offset. -/
def verifyLoop (idx : List Nat) (numVertices : Nat) : List Nat → Nat → Bool
  | [], _ => true
  | v :: rest, ofs =>
      (List.range v).all
        (fun d => decide (ofs + d < idx.length) && decide (idx.getD (ofs + d) 0 < numVertices))
      && verifyLoop idx numVertices rest (ofs + v)

/-- `Topology::verify(numVertices)`: walk every face's contiguous corner run
and range-check every referenced vertex id.  Total, returns a boolean. -/
def verify (inp : TopoInput) (numVertices : Nat) : Bool :=
  verifyLoop inp.vertexIndices numVertices inp.faceVertices 0

/-! ### Basic layout lemmas -/

theorem faceStartEdge_zero (vals : List Nat) : faceStartEdge vals 0 = 0 := rfl

theorem faceStartEdge_cons_succ (v : Nat) (rest : List Nat) (f : Nat) :
    faceStartEdge (v :: rest) (f + 1) = v + faceStartEdge rest f := by
  simp [faceStartEdge]

/-! ### C6: the coordinator decision -/

/-- C6: for a slot with a populated index buffer, the coordinator runs the
Builder exactly when this slot's indices, the valence buffer, or the hole
buffer is modified; otherwise it runs the Updater exactly when slot-0
indices, any crease buffer, or the level buffer is modified; otherwise it
runs neither. -/
theorem c6_commit_decision (b : BufferFlags) (hpop : b.thisIndicesPopulated = true) :
    (topologyCommitAction b = TopoAction.runBuilder ↔
      (b.thisIndicesModified || b.faceVerticesModified || b.holesModified) = true) ∧
    (topologyCommitAction b = TopoAction.runUpdater ↔
      ((b.thisIndicesModified || b.faceVerticesModified || b.holesModified) = false ∧
       (b.slot0IndicesModified || b.edgeCreasesModified || b.edgeCreaseWeightsModified ||
        b.vertexCreasesModified || b.vertexCreaseWeightsModified || b.levelsModified) = true)) ∧
    (topologyCommitAction b = TopoAction.noAction ↔
      ((b.thisIndicesModified || b.faceVerticesModified || b.holesModified) = false ∧
       (b.slot0IndicesModified || b.edgeCreasesModified || b.edgeCreaseWeightsModified ||
        b.vertexCreasesModified || b.vertexCreaseWeightsModified || b.levelsModified) = false)) := by
  obtain ⟨p, a1, a2, a3, s0, e1, e2, v1, v2, lv⟩ := b
  cases p
  · exact absurd hpop (by simp)
  · cases a1 <;> cases a2 <;> cases a3 <;> cases s0 <;> cases e1 <;> cases e2 <;>
      cases v1 <;> cases v2 <;> cases lv <;> decide

/-- Witness for C6 at a concrete flag setting. -/
theorem c6_commit_decision_witness :
    topologyCommitAction
        ⟨true, false, false, false, false, true, false, false, false, false⟩ =
      TopoAction.runUpdater :=
  ((c6_commit_decision
      ⟨true, false, false, false, false, true, false, false, false, false⟩ rfl).2.1).2
    ⟨rfl, rfl⟩

/-! ### C10: the per-(face, time step) invalid flag -/

/-- C10: while classifying slot 0, the invalid flag of a face is set for
every time step whenever the face is a hole, regardless of the vertex
validity test; and the flag is set iff the face is a hole or its vertices
fail the validity test at that time step. -/
theorem c10_invalid_flag (inp : TopoInput) (validP : Nat → Nat → Bool) (f t : Nat) :
    (holeMem inp.holeSet f = true → ∀ s, invalidFace inp validP f s = true) ∧
    (invalidFace inp validP f t = true ↔
      (holeMem inp.holeSet f = true ∨ validP f t = false)) := by
  unfold invalidFace
  constructor
  · intro h s
    simp [h]
  · cases hv : validP f t <;> cases hh : holeMem inp.holeSet f <;> simp [hv, hh]

/-- Witness for C10: a hole face is invalid even when all vertices pass. -/
theorem c10_invalid_flag_witness :
    invalidFace meshTriHole (fun _ _ => true) 0 7 = true :=
  (c10_invalid_flag meshTriHole (fun _ _ => true) 0 0).1 (by decide) 7

/-! ### C9: Topology::verify -/

theorem verifyLoop_iff (idx : List Nat) (n : Nat) (vals : List Nat) (ofs : Nat) :
    verifyLoop idx n vals ofs = true ↔
      ∀ f, f < vals.length → ∀ de, de < vals.getD f 0 →
        ofs + faceStartEdge vals f + de < idx.length ∧
        idx.getD (ofs + faceStartEdge vals f + de) 0 < n := by
  induction vals generalizing ofs with
  | nil => simp [verifyLoop]
  | cons v rest ih =>
    simp only [verifyLoop, Bool.and_eq_true, List.all_eq_true, List.mem_range]
    rw [ih (ofs + v)]
    constructor
    · rintro ⟨h1, h2⟩ f hf de hde
      match f with
      | 0 =>
          have h3 := h1 de (by simpa using hde)
          simp only [Bool.and_eq_true, decide_eq_true_eq] at h3
          simpa [faceStartEdge_zero] using h3
      | Nat.succ f =>
          have hf2 : f < rest.length := by simpa using hf
          have hde2 : de < rest.getD f 0 := by simpa using hde
          have h3 := h2 f hf2 de hde2
          rw [faceStartEdge_cons_succ]
          rw [show ofs + (v + faceStartEdge rest f) + de =
                ofs + v + faceStartEdge rest f + de from by omega]
          exact h3
    · intro h
      constructor
      · intro de hde
        have h3 := h 0 (by simp) de (by simpa using hde)
        simp only [faceStartEdge_zero, Nat.add_zero] at h3
        simp only [Bool.and_eq_true, decide_eq_true_eq]
        exact h3
      · intro f hf de hde
        have h3 := h (f + 1) (by simpa using hf) de (by simpa using hde)
        rw [faceStartEdge_cons_succ] at h3
        rw [show ofs + v + faceStartEdge rest f + de =
              ofs + (v + faceStartEdge rest f) + de from by omega]
        exact h3

/-- C9: `verify(numVertices)` is total (it is a Lean function) and returns
true iff every face's every corner position lies inside the slot's index
buffer and the vertex id stored there is strictly below `numVertices`. -/
theorem c9_verify_iff (inp : TopoInput) (n : Nat) :
    verify inp n = true ↔
      ∀ f, f < numFaces inp → ∀ de, de < valence inp f →
        faceStartEdge inp.faceVertices f + de < inp.vertexIndices.length ∧
        inp.vertexIndices.getD (faceStartEdge inp.faceVertices f + de) 0 < n := by
  unfold verify numFaces valence
  rw [verifyLoop_iff]
  simp

/-- Witness for C9: on the single triangle, `verify 3` succeeds and yields
the range facts for corner 1. -/
theorem c9_verify_iff_witness :
    faceStartEdge meshTri.faceVertices 0 + 1 < meshTri.vertexIndices.length ∧
    meshTri.vertexIndices.getD (faceStartEdge meshTri.faceVertices 0 + 1) 0 < 3 :=
  (c9_verify_iff meshTri 3).1 (by decide) 0 (by decide) 1 (by decide)

/-! ### C2: emission offsets and face-loop closure -/

theorem posFace_eq (vals : List Nat) (f de : Nat) (hf : f < vals.length)
    (hde : de < vals.getD f 0) :
    posFace vals (faceStartEdge vals f + de) = (f, de) := by
  induction vals generalizing f with
  | nil => simp at hf
  | cons v rest ih =>
    match f with
    | 0 =>
        have hv : de < v := by simpa using hde
        simp [posFace, faceStartEdge_zero, hv]
    | Nat.succ f =>
        have hf2 : f < rest.length := by simpa using hf
        have hde2 : de < rest.getD f 0 := by simpa using hde
        rw [faceStartEdge_cons_succ]
        have hge : ¬ (v + faceStartEdge rest f + de < v) := by omega
        simp only [posFace, hge, if_neg, ite_false]
        rw [show v + faceStartEdge rest f + de - v = faceStartEdge rest f + de from by omega]
        rw [ih f hf2 hde2]

theorem take_sum_le_sum (vals : List Nat) (k : Nat) : (vals.take k).sum ≤ vals.sum := by
  conv_rhs => rw [← List.take_append_drop k vals]
  rw [List.sum_append]
  exact Nat.le_add_right _ _

theorem faceStart_add_lt (inp : TopoInput) (f de : Nat) (hf : f < numFaces inp)
    (hde : de < valence inp f) :
    faceStartEdge inp.faceVertices f + de < numHalfEdges inp := by
  have hgd : inp.faceVertices.getD f 0 = inp.faceVertices.get ⟨f, hf⟩ := by
    rw [List.getD_eq_getElem?_getD, List.getElem?_eq_getElem hf]
    rfl
  have h1 : faceStartEdge inp.faceVertices f + de < (inp.faceVertices.take (f + 1)).sum := by
    rw [List.sum_take_succ _ _ hf]
    have hv : de < inp.faceVertices[f] := by
      have := hde
      unfold valence at this
      rw [hgd] at this
      exact this
    unfold faceStartEdge
    omega
  exact lt_of_lt_of_le h1 (take_sum_le_sum _ _)

theorem length_emitMesh (inp : TopoInput) : (emitMesh inp).length = numHalfEdges inp := by
  simp [emitMesh]

theorem hget_emitMesh (inp : TopoInput) (p : Nat) (hp : p < numHalfEdges inp) :
    hget (emitMesh inp) p = edgeAt inp p := by
  unfold hget emitMesh
  rw [List.getD_eq_getElem?_getD, List.getElem?_map, List.getElem?_range hp]
  rfl

/-- The emitted record at face `f`, corner `de`, with the face lookup
resolved. -/
theorem edgeAt_spec (inp : TopoInput) (f de : Nat) (hf : f < numFaces inp)
    (hde : de < valence inp f) :
    edgeAt inp (faceStartEdge inp.faceVertices f + de) =
      { vtx_index := inp.vertexIndices.getD (faceStartEdge inp.faceVertices f + de) 0
        next_half_edge_ofs := nextOfsAt (valence inp f) de
        prev_half_edge_ofs := prevOfsAt (valence inp f) de
        opposite_half_edge_ofs := 0
        edge_crease_weight :=
          mapLookup inp.edgeCreaseMap
            (pair64 (inp.vertexIndices0.getD (faceStartEdge inp.faceVertices f + de) 0)
              (inp.vertexIndices0.getD
                (cornerNextIndex (faceStartEdge inp.faceVertices f) (valence inp f) de) 0))
            (.fin 0)
        vertex_crease_weight :=
          mapLookup inp.vertexCreaseMap
            (inp.vertexIndices0.getD (faceStartEdge inp.faceVertices f + de) 0) (.fin 0)
        edge_level := getEdgeLevel inp (faceStartEdge inp.faceVertices f + de)
        patch_type := .COMPLEX_PATCH
        vertex_type := .REGULAR_VERTEX } := by
  have hpf : posFace inp.faceVertices (faceStartEdge inp.faceVertices f + de) = (f, de) :=
    posFace_eq inp.faceVertices f de hf (by
      have := hde
      unfold valence at this
      exact this)
  simp only [edgeAt, hpf]

theorem nextIndex_emit (inp : TopoInput) (f de : Nat) (hf : f < numFaces inp)
    (hde : de < valence inp f) :
    nextIndex (emitMesh inp) (faceStartEdge inp.faceVertices f + de) =
      faceStartEdge inp.faceVertices f + (de + 1) % valence inp f := by
  have hp : faceStartEdge inp.faceVertices f + de < numHalfEdges inp :=
    faceStart_add_lt inp f de hf hde
  unfold nextIndex
  rw [hget_emitMesh inp _ hp, edgeAt_spec inp f de hf hde]
  show (((faceStartEdge inp.faceVertices f + de : Nat) : Int) +
      nextOfsAt (valence inp f) de).toNat = _
  unfold nextOfsAt
  by_cases hlast : de = valence inp f - 1
  · rw [if_pos hlast, show de + 1 = valence inp f from by omega, Nat.mod_self]
    omega
  · rw [if_neg hlast, Nat.mod_eq_of_lt (by omega)]
    omega

theorem prevIndex_emit (inp : TopoInput) (f de : Nat) (hf : f < numFaces inp)
    (hde : de < valence inp f) :
    prevIndex (emitMesh inp) (faceStartEdge inp.faceVertices f + de) =
      faceStartEdge inp.faceVertices f + (de + (valence inp f - 1)) % valence inp f := by
  have hp : faceStartEdge inp.faceVertices f + de < numHalfEdges inp :=
    faceStart_add_lt inp f de hf hde
  unfold prevIndex
  rw [hget_emitMesh inp _ hp, edgeAt_spec inp f de hf hde]
  show (((faceStartEdge inp.faceVertices f + de : Nat) : Int) +
      prevOfsAt (valence inp f) de).toNat = _
  unfold prevOfsAt
  by_cases hz : de = 0
  · rw [if_pos hz, hz, Nat.zero_add, Nat.mod_eq_of_lt (by omega)]
    omega
  · rw [if_neg hz, show (de + (valence inp f - 1)) % valence inp f
        = (de - 1 + 1 * valence inp f) % valence inp f from by congr 1; omega,
      Nat.add_mul_mod_self_right, Nat.mod_eq_of_lt (by omega)]
    omega

/-- A step function rotating corners inside one face iterates to a modular
rotation. -/
theorem iter_rotate (g : Nat → Nat) (s N c : Nat) (hN : 0 < N)
    (hg : ∀ de, de < N → g (s + de) = s + (de + c) % N) :
    ∀ k de, de < N → g^[k] (s + de) = s + (de + k * c) % N := by
  intro k
  induction k with
  | zero =>
      intro de hde
      simp [Nat.mod_eq_of_lt hde]
  | succ k ih =>
      intro de hde
      rw [Function.iterate_succ_apply', ih de hde,
        hg ((de + k * c) % N) (Nat.mod_lt _ hN), Nat.mod_add_mod]
      congr 1
      ring_nf

/-- C2: after the per-face emission pass, the half-edge at face-start `+ de`
carries next offset `+1` (or `-(N-1)` at the last corner) and prev offset
`-1` (or `+(N-1)` at the first corner); consequently following `next`
exactly `N` times from any corner of the face returns to it, and likewise
for `prev`. -/
theorem c2_emission_offsets_closure (inp : TopoInput) (f de : Nat)
    (hf : f < numFaces inp) (hval : 3 ≤ valence inp f) (hde : de < valence inp f) :
    (hget (emitMesh inp) (faceStartEdge inp.faceVertices f + de)).next_half_edge_ofs =
      (if de = valence inp f - 1 then -((valence inp f - 1 : Nat) : Int) else 1) ∧
    (hget (emitMesh inp) (faceStartEdge inp.faceVertices f + de)).prev_half_edge_ofs =
      (if de = 0 then ((valence inp f - 1 : Nat) : Int) else -1) ∧
    (fun i => nextIndex (emitMesh inp) i)^[valence inp f]
        (faceStartEdge inp.faceVertices f + de) =
      faceStartEdge inp.faceVertices f + de ∧
    (fun i => prevIndex (emitMesh inp) i)^[valence inp f]
        (faceStartEdge inp.faceVertices f + de) =
      faceStartEdge inp.faceVertices f + de := by
  have hp : faceStartEdge inp.faceVertices f + de < numHalfEdges inp :=
    faceStart_add_lt inp f de hf hde
  refine ⟨?_, ?_, ?_, ?_⟩
  · rw [hget_emitMesh inp _ hp, edgeAt_spec inp f de hf hde]
    rfl
  · rw [hget_emitMesh inp _ hp, edgeAt_spec inp f de hf hde]
    rfl
  · rw [iter_rotate (fun i => nextIndex (emitMesh inp) i) (faceStartEdge inp.faceVertices f)
        (valence inp f) 1 (by omega)
        (fun d hd => nextIndex_emit inp f d hf hd) (valence inp f) de hde]
    rw [Nat.mul_one, Nat.add_mod_right, Nat.mod_eq_of_lt hde]
  · rw [iter_rotate (fun i => prevIndex (emitMesh inp) i) (faceStartEdge inp.faceVertices f)
        (valence inp f) (valence inp f - 1) (by omega)
        (fun d hd => prevIndex_emit inp f d hf hd) (valence inp f) de hde]
    rw [Nat.add_mul_mod_self_left, Nat.mod_eq_of_lt hde]

/-- Witness for C2 at corner 2 of the single triangle. -/
theorem c2_emission_offsets_closure_witness :
    (hget (emitMesh meshTri) (faceStartEdge meshTri.faceVertices 0 + 2)).next_half_edge_ofs =
      -((2 : Nat) : Int) ∧
    (fun i => nextIndex (emitMesh meshTri) i)^[3]
        (faceStartEdge meshTri.faceVertices 0 + 2) =
      faceStartEdge meshTri.faceVertices 0 + 2 := by
  have h := c2_emission_offsets_closure meshTri 0 2 (by decide) (by decide) (by decide)
  exact ⟨by rw [h.1]; decide, h.2.2.1⟩

/-! ### Array write lemmas -/

theorem hget_set (A : List HalfEdge) (i : Nat) (e : HalfEdge) (q : Nat) :
    hget (A.set i e) q = if i = q ∧ i < A.length then e else hget A q := by
  unfold hget
  rw [List.getD_eq_getElem?_getD, List.getD_eq_getElem?_getD, List.getElem?_set]
  by_cases h1 : i = q
  · subst h1
    by_cases h2 : i < A.length
    · simp [h2]
    · have hn : A[i]? = none := by
        rw [List.getElem?_eq_none_iff]
        omega
      simp [h2, hn]
  · simp [h1]

theorem length_setEdgeCreaseInf (A : List HalfEdge) (i : Nat) :
    (setEdgeCreaseInf A i).length = A.length := by
  simp [setEdgeCreaseInf]

theorem length_markNonManifold (A : List HalfEdge) (i : Nat) :
    (markNonManifold A i).length = A.length := by
  simp [markNonManifold]

theorem length_setOppositeAt (A : List HalfEdge) (i j : Nat) :
    (setOppositeAt A i j).length = A.length := by
  simp [setOppositeAt]

theorem hget_setEdgeCreaseInf (A : List HalfEdge) (i q : Nat) :
    hget (setEdgeCreaseInf A i) q =
      if i = q ∧ i < A.length then { hget A i with edge_crease_weight := .inf }
      else hget A q := by
  unfold setEdgeCreaseInf
  rw [hget_set]

theorem hget_markNonManifold (A : List HalfEdge) (i q : Nat) :
    hget (markNonManifold A i) q =
      if i = q ∧ i < A.length then
        { hget A i with
            vertex_crease_weight := .inf
            vertex_type := .NON_MANIFOLD_EDGE_VERTEX
            edge_crease_weight := .inf }
      else hget A q := by
  unfold markNonManifold
  rw [hget_set]

theorem hget_setOppositeAt (A : List HalfEdge) (i j q : Nat) :
    hget (setOppositeAt A i j) q =
      if i = q ∧ i < A.length then
        { hget A i with opposite_half_edge_ofs := (j : Int) - (i : Int) }
      else hget A q := by
  unfold setOppositeAt
  rw [hget_set]

theorem static_setEdgeCreaseInf (A : List HalfEdge) (i q : Nat) :
    staticFields (hget (setEdgeCreaseInf A i) q) = staticFields (hget A q) := by
  rw [hget_setEdgeCreaseInf]
  split_ifs with h
  · rw [← h.1]
    rfl
  · rfl

theorem static_markNonManifold (A : List HalfEdge) (i q : Nat) :
    staticFields (hget (markNonManifold A i) q) = staticFields (hget A q) := by
  rw [hget_markNonManifold]
  split_ifs with h
  · rw [← h.1]
    rfl
  · rfl

theorem static_setOppositeAt (A : List HalfEdge) (i j q : Nat) :
    staticFields (hget (setOppositeAt A i j) q) = staticFields (hget A q) := by
  rw [hget_setOppositeAt]
  split_ifs with h
  · rw [← h.1]
    rfl
  · rfl

theorem nextIndex_congr_static (A B : List HalfEdge)
    (h : ∀ r, staticFields (hget B r) = staticFields (hget A r)) (i : Nat) :
    nextIndex B i = nextIndex A i := by
  unfold nextIndex
  have h2 := congrArg (fun t => t.2.1) (h i)
  simp only [staticFields] at h2
  rw [h2]

theorem windingMismatch_congr_static (A B : List HalfEdge)
    (h : ∀ r, staticFields (hget B r) = staticFields (hget A r)) (i j : Nat) :
    windingMismatch B i j = windingMismatch A i j := by
  unfold windingMismatch
  rw [nextIndex_congr_static A B h i]
  have hv : ∀ r, (hget B r).vtx_index = (hget A r).vtx_index := by
    intro r
    exact congrArg (fun t => t.1) (h r)
  rw [hv, hv]

/-! ### Per-field preservation of the write operations -/

theorem opp_setEdgeCreaseInf (A : List HalfEdge) (i q : Nat) :
    (hget (setEdgeCreaseInf A i) q).opposite_half_edge_ofs =
      (hget A q).opposite_half_edge_ofs := by
  rw [hget_setEdgeCreaseInf]
  split_ifs with h
  · rw [← h.1]
  · rfl

theorem vw_setEdgeCreaseInf (A : List HalfEdge) (i q : Nat) :
    (hget (setEdgeCreaseInf A i) q).vertex_crease_weight =
      (hget A q).vertex_crease_weight := by
  rw [hget_setEdgeCreaseInf]
  split_ifs with h
  · rw [← h.1]
  · rfl

theorem vt_setEdgeCreaseInf (A : List HalfEdge) (i q : Nat) :
    (hget (setEdgeCreaseInf A i) q).vertex_type = (hget A q).vertex_type := by
  rw [hget_setEdgeCreaseInf]
  split_ifs with h
  · rw [← h.1]
  · rfl

theorem opp_markNonManifold (A : List HalfEdge) (i q : Nat) :
    (hget (markNonManifold A i) q).opposite_half_edge_ofs =
      (hget A q).opposite_half_edge_ofs := by
  rw [hget_markNonManifold]
  split_ifs with h
  · rw [← h.1]
  · rfl

theorem edgeW_setOppositeAt (A : List HalfEdge) (i j q : Nat) :
    (hget (setOppositeAt A i j) q).edge_crease_weight =
      (hget A q).edge_crease_weight := by
  rw [hget_setOppositeAt]
  split_ifs with h
  · rw [← h.1]
  · rfl

theorem vw_setOppositeAt (A : List HalfEdge) (i j q : Nat) :
    (hget (setOppositeAt A i j) q).vertex_crease_weight =
      (hget A q).vertex_crease_weight := by
  rw [hget_setOppositeAt]
  split_ifs with h
  · rw [← h.1]
  · rfl

theorem vt_setOppositeAt (A : List HalfEdge) (i j q : Nat) :
    (hget (setOppositeAt A i j) q).vertex_type = (hget A q).vertex_type := by
  rw [hget_setOppositeAt]
  split_ifs with h
  · rw [← h.1]
  · rfl

theorem edgeW_setEdgeCreaseInf_cases (A : List HalfEdge) (i q : Nat) :
    (hget (setEdgeCreaseInf A i) q).edge_crease_weight = (hget A q).edge_crease_weight ∨
    (hget (setEdgeCreaseInf A i) q).edge_crease_weight = .inf := by
  rw [hget_setEdgeCreaseInf]
  split_ifs with h
  · right
    rfl
  · left
    rfl

/-! ### The non-manifold fold -/

theorem mnmFold_cons (B : List HalfEdge) (i : Nat) (rest : List Nat) :
    mnmFold B (i :: rest) =
      mnmFold (markNonManifold (markNonManifold B i) (nextIndex B i)) rest := rfl

theorem static_mnmFold (run : List Nat) (B : List HalfEdge) (q : Nat) :
    staticFields (hget (mnmFold B run) q) = staticFields (hget B q) := by
  induction run generalizing B with
  | nil => rfl
  | cons i rest ih =>
    rw [mnmFold_cons, ih, static_markNonManifold, static_markNonManifold]

theorem length_mnmFold (run : List Nat) (B : List HalfEdge) :
    (mnmFold B run).length = B.length := by
  induction run generalizing B with
  | nil => rfl
  | cons i rest ih =>
    rw [mnmFold_cons, ih, length_markNonManifold, length_markNonManifold]

/-- Every write of the non-manifold sweep either leaves a record alone or
pins it; the opposite offset is never touched. -/
theorem mnmFold_writes (run : List Nat) (B : List HalfEdge) (q : Nat) :
    hget (mnmFold B run) q = hget B q ∨
      ((hget (mnmFold B run) q).edge_crease_weight = .inf ∧
       (hget (mnmFold B run) q).vertex_crease_weight = .inf ∧
       (hget (mnmFold B run) q).vertex_type = .NON_MANIFOLD_EDGE_VERTEX ∧
       (hget (mnmFold B run) q).opposite_half_edge_ofs =
         (hget B q).opposite_half_edge_ofs) := by
  induction run generalizing B with
  | nil => exact Or.inl rfl
  | cons i rest ih =>
    rw [mnmFold_cons]
    have hopp : (hget (markNonManifold (markNonManifold B i) (nextIndex B i))
        q).opposite_half_edge_ofs = (hget B q).opposite_half_edge_ofs := by
      rw [opp_markNonManifold, opp_markNonManifold]
    have hcases : hget (markNonManifold (markNonManifold B i) (nextIndex B i)) q =
        hget B q ∨
        ((hget (markNonManifold (markNonManifold B i) (nextIndex B i))
            q).edge_crease_weight = .inf ∧
         (hget (markNonManifold (markNonManifold B i) (nextIndex B i))
            q).vertex_crease_weight = .inf ∧
         (hget (markNonManifold (markNonManifold B i) (nextIndex B i))
            q).vertex_type = .NON_MANIFOLD_EDGE_VERTEX) := by
      by_cases h1 : nextIndex B i = q ∧ nextIndex B i < (markNonManifold B i).length
      · rw [hget_markNonManifold (markNonManifold B i), if_pos h1]
        exact Or.inr ⟨rfl, rfl, rfl⟩
      · rw [hget_markNonManifold (markNonManifold B i) (nextIndex B i) q, if_neg h1]
        by_cases h2 : i = q ∧ i < B.length
        · rw [hget_markNonManifold B i q, if_pos h2]
          exact Or.inr ⟨rfl, rfl, rfl⟩
        · rw [hget_markNonManifold B i q, if_neg h2]
          exact Or.inl rfl
    rcases ih (markNonManifold (markNonManifold B i) (nextIndex B i)) with h | h
    · rcases hcases with h2 | h2
      · exact Or.inl (by rw [h, h2])
      · right
        rw [h]
        exact ⟨h2.1, h2.2.1, h2.2.2, hopp⟩
    · right
      exact ⟨h.1, h.2.1, h.2.2.1, by rw [h.2.2.2, hopp]⟩

theorem mnmFold_frame (run : List Nat) (B : List HalfEdge) (q : Nat)
    (hq : q ∉ run) (hn : ∀ i ∈ run, nextIndex B i ≠ q) :
    hget (mnmFold B run) q = hget B q := by
  induction run generalizing B with
  | nil => rfl
  | cons i rest ih =>
    rw [mnmFold_cons]
    have hstat : ∀ r,
        staticFields (hget (markNonManifold (markNonManifold B i) (nextIndex B i)) r) =
          staticFields (hget B r) := by
      intro r
      rw [static_markNonManifold, static_markNonManifold]
    rw [ih _ (fun h => hq (List.mem_cons_of_mem _ h))]
    · have hne : nextIndex B i ≠ q := hn i (List.mem_cons_self i rest)
      have hiq : i ≠ q := fun h => hq (h ▸ List.mem_cons_self i rest)
      rw [hget_markNonManifold]
      rw [if_neg (fun h => hne h.1)]
      rw [hget_markNonManifold]
      rw [if_neg (fun h => hiq h.1)]
    · intro j hj
      rw [nextIndex_congr_static B _ hstat]
      exact hn j (List.mem_cons_of_mem _ hj)

/-- Every member of a non-manifold run, and its `next` half-edge, ends the
sweep pinned: infinite edge and vertex crease weights, non-manifold type. -/
theorem mnmFold_member_effect (run : List Nat) (B : List HalfEdge)
    (hb : ∀ i ∈ run, i < B.length ∧ nextIndex B i < B.length) (p : Nat) (hp : p ∈ run) :
    ((hget (mnmFold B run) p).edge_crease_weight = .inf ∧
     (hget (mnmFold B run) p).vertex_crease_weight = .inf ∧
     (hget (mnmFold B run) p).vertex_type = .NON_MANIFOLD_EDGE_VERTEX) ∧
    ((hget (mnmFold B run) (nextIndex B p)).edge_crease_weight = .inf ∧
     (hget (mnmFold B run) (nextIndex B p)).vertex_crease_weight = .inf ∧
     (hget (mnmFold B run) (nextIndex B p)).vertex_type =
       .NON_MANIFOLD_EDGE_VERTEX) := by
  induction run generalizing B with
  | nil => cases hp
  | cons i rest ih =>
    rw [mnmFold_cons]
    have hstat : ∀ r,
        staticFields (hget (markNonManifold (markNonManifold B i) (nextIndex B i)) r) =
          staticFields (hget B r) := by
      intro r
      rw [static_markNonManifold, static_markNonManifold]
    have hlen : (markNonManifold (markNonManifold B i) (nextIndex B i)).length =
        B.length := by
      rw [length_markNonManifold, length_markNonManifold]
    rcases List.mem_cons.mp hp with hpi | hpr
    · subst hpi
      have hi : p < B.length := (hb p (List.mem_cons_self p rest)).1
      have hni : nextIndex B p < B.length := (hb p (List.mem_cons_self p rest)).2
      have hset : (hget (markNonManifold (markNonManifold B p) (nextIndex B p))
            p).edge_crease_weight = .inf ∧
          (hget (markNonManifold (markNonManifold B p) (nextIndex B p))
            p).vertex_crease_weight = .inf ∧
          (hget (markNonManifold (markNonManifold B p) (nextIndex B p))
            p).vertex_type = .NON_MANIFOLD_EDGE_VERTEX := by
        by_cases h1 : nextIndex B p = p ∧ nextIndex B p < (markNonManifold B p).length
        · rw [hget_markNonManifold (markNonManifold B p), if_pos h1]
          exact ⟨rfl, rfl, rfl⟩
        · rw [hget_markNonManifold (markNonManifold B p) (nextIndex B p) p, if_neg h1]
          rw [hget_markNonManifold B p p, if_pos ⟨rfl, hi⟩]
          exact ⟨rfl, rfl, rfl⟩
      have hsetn : (hget (markNonManifold (markNonManifold B p) (nextIndex B p))
            (nextIndex B p)).edge_crease_weight = .inf ∧
          (hget (markNonManifold (markNonManifold B p) (nextIndex B p))
            (nextIndex B p)).vertex_crease_weight = .inf ∧
          (hget (markNonManifold (markNonManifold B p) (nextIndex B p))
            (nextIndex B p)).vertex_type = .NON_MANIFOLD_EDGE_VERTEX := by
        rw [hget_markNonManifold]
        rw [if_pos ⟨rfl, by rw [length_markNonManifold]; exact hni⟩]
        exact ⟨rfl, rfl, rfl⟩
      constructor
      · rcases mnmFold_writes rest
            (markNonManifold (markNonManifold B p) (nextIndex B p)) p with h | h
        · rw [h]
          exact hset
        · exact ⟨h.1, h.2.1, h.2.2.1⟩
      · rcases mnmFold_writes rest
            (markNonManifold (markNonManifold B p) (nextIndex B p))
            (nextIndex B p) with h | h
        · rw [h]
          exact hsetn
        · exact ⟨h.1, h.2.1, h.2.2.1⟩
    · have hb1 : ∀ j ∈ rest,
          j < (markNonManifold (markNonManifold B i) (nextIndex B i)).length ∧
          nextIndex (markNonManifold (markNonManifold B i) (nextIndex B i)) j <
            (markNonManifold (markNonManifold B i) (nextIndex B i)).length := by
        intro j hj
        rw [hlen, nextIndex_congr_static B _ hstat]
        exact hb j (List.mem_cons_of_mem _ hj)
      have hres := ih (markNonManifold (markNonManifold B i) (nextIndex B i)) hb1 hpr
      rw [nextIndex_congr_static B _ hstat] at hres
      exact hres

/-! ### processRun lemmas -/

theorem processRun_nil (A : List HalfEdge) : processRun A [] = A := rfl

theorem processRun_single (A : List HalfEdge) (i : Nat) :
    processRun A [i] = setEdgeCreaseInf A i := rfl

theorem processRun_pair (A : List HalfEdge) (i j : Nat) :
    processRun A [i, j] =
      if windingMismatch A i j then setEdgeCreaseInf (setEdgeCreaseInf A i) j
      else setOppositeAt (setOppositeAt A i j) j i := rfl

theorem processRun_big (A : List HalfEdge) (i j k : Nat) (rest : List Nat) :
    processRun A (i :: j :: k :: rest) = mnmFold A (i :: j :: k :: rest) := rfl

theorem length_processRun (A : List HalfEdge) (run : List Nat) :
    (processRun A run).length = A.length := by
  rcases run with _ | ⟨i, _ | ⟨j, _ | ⟨k, rest⟩⟩⟩
  · rfl
  · rw [processRun_single, length_setEdgeCreaseInf]
  · rw [processRun_pair]
    split_ifs
    · rw [length_setEdgeCreaseInf, length_setEdgeCreaseInf]
    · rw [length_setOppositeAt, length_setOppositeAt]
  · rw [processRun_big, length_mnmFold]

theorem static_processRun (A : List HalfEdge) (run : List Nat) (q : Nat) :
    staticFields (hget (processRun A run) q) = staticFields (hget A q) := by
  rcases run with _ | ⟨i, _ | ⟨j, _ | ⟨k, rest⟩⟩⟩
  · rfl
  · rw [processRun_single, static_setEdgeCreaseInf]
  · rw [processRun_pair]
    split_ifs
    · rw [static_setEdgeCreaseInf, static_setEdgeCreaseInf]
    · rw [static_setOppositeAt, static_setOppositeAt]
  · rw [processRun_big, static_mnmFold]

theorem opp_processRun_frame (A : List HalfEdge) (run : List Nat) (q : Nat)
    (h : run.length = 2 → q ∉ run) :
    (hget (processRun A run) q).opposite_half_edge_ofs =
      (hget A q).opposite_half_edge_ofs := by
  rcases run with _ | ⟨i, _ | ⟨j, _ | ⟨k, rest⟩⟩⟩
  · rfl
  · rw [processRun_single, opp_setEdgeCreaseInf]
  · have hq : q ∉ [i, j] := h rfl
    have hqi : q ≠ i := fun hh => hq (hh ▸ List.mem_cons_self i [j])
    have hqj : q ≠ j := fun hh => hq (by rw [hh]; exact List.mem_cons_of_mem i (List.mem_cons_self j []))
    rw [processRun_pair]
    split_ifs
    · rw [opp_setEdgeCreaseInf, opp_setEdgeCreaseInf]
    · rw [hget_setOppositeAt (setOppositeAt A i j) j i q,
        if_neg (fun hh => hqj hh.1.symm),
        hget_setOppositeAt A i j q, if_neg (fun hh => hqi hh.1.symm)]
  · rw [processRun_big]
    rcases mnmFold_writes (i :: j :: k :: rest) A q with hw | hw
    · rw [hw]
    · exact hw.2.2.2

theorem vw_processRun_frame (A : List HalfEdge) (run : List Nat) (q : Nat)
    (h : run.length ≤ 2) :
    (hget (processRun A run) q).vertex_crease_weight =
      (hget A q).vertex_crease_weight := by
  rcases run with _ | ⟨i, _ | ⟨j, _ | ⟨k, rest⟩⟩⟩
  · rfl
  · rw [processRun_single, vw_setEdgeCreaseInf]
  · rw [processRun_pair]
    split_ifs
    · rw [vw_setEdgeCreaseInf, vw_setEdgeCreaseInf]
    · rw [vw_setOppositeAt, vw_setOppositeAt]
  · simp at h

theorem vt_processRun_frame (A : List HalfEdge) (run : List Nat) (q : Nat)
    (h : run.length ≤ 2) :
    (hget (processRun A run) q).vertex_type = (hget A q).vertex_type := by
  rcases run with _ | ⟨i, _ | ⟨j, _ | ⟨k, rest⟩⟩⟩
  · rfl
  · rw [processRun_single, vt_setEdgeCreaseInf]
  · rw [processRun_pair]
    split_ifs
    · rw [vt_setEdgeCreaseInf, vt_setEdgeCreaseInf]
    · rw [vt_setOppositeAt, vt_setOppositeAt]
  · simp at h

theorem edgeW_processRun_cases (A : List HalfEdge) (run : List Nat) (q : Nat) :
    (hget (processRun A run) q).edge_crease_weight = (hget A q).edge_crease_weight ∨
    (hget (processRun A run) q).edge_crease_weight = .inf := by
  rcases run with _ | ⟨i, _ | ⟨j, _ | ⟨k, rest⟩⟩⟩
  · exact Or.inl rfl
  · rw [processRun_single]
    exact edgeW_setEdgeCreaseInf_cases A i q
  · rw [processRun_pair]
    split_ifs
    · rcases edgeW_setEdgeCreaseInf_cases (setEdgeCreaseInf A i) j q with hc | hc
      · rw [hc]
        exact edgeW_setEdgeCreaseInf_cases A i q
      · exact Or.inr hc
    · rw [edgeW_setOppositeAt, edgeW_setOppositeAt]
      exact Or.inl rfl
  · rw [processRun_big]
    rcases mnmFold_writes (i :: j :: k :: rest) A q with hw | hw
    · exact Or.inl (by rw [hw])
    · exact Or.inr hw.1

theorem vw_processRun_cases (A : List HalfEdge) (run : List Nat) (q : Nat) :
    (hget (processRun A run) q).vertex_crease_weight = (hget A q).vertex_crease_weight ∨
    (hget (processRun A run) q).vertex_crease_weight = .inf := by
  rcases run with _ | ⟨i, _ | ⟨j, _ | ⟨k, rest⟩⟩⟩
  · exact Or.inl rfl
  · exact Or.inl (by rw [processRun_single, vw_setEdgeCreaseInf])
  · exact Or.inl (vw_processRun_frame A [i, j] q (by simp))
  · rw [processRun_big]
    rcases mnmFold_writes (i :: j :: k :: rest) A q with hw | hw
    · exact Or.inl (by rw [hw])
    · exact Or.inr hw.2.1

theorem vt_processRun_cases (A : List HalfEdge) (run : List Nat) (q : Nat) :
    (hget (processRun A run) q).vertex_type = (hget A q).vertex_type ∨
    (hget (processRun A run) q).vertex_type = .NON_MANIFOLD_EDGE_VERTEX := by
  rcases run with _ | ⟨i, _ | ⟨j, _ | ⟨k, rest⟩⟩⟩
  · exact Or.inl rfl
  · exact Or.inl (by rw [processRun_single, vt_setEdgeCreaseInf])
  · exact Or.inl (vt_processRun_frame A [i, j] q (by simp))
  · rw [processRun_big]
    rcases mnmFold_writes (i :: j :: k :: rest) A q with hw | hw
    · exact Or.inl (by rw [hw])
    · exact Or.inr hw.2.2.1

theorem edgeW_processRun_frame (A : List HalfEdge) (run : List Nat) (q : Nat)
    (hcond : (q ∉ run ∧ (3 ≤ run.length → ∀ i ∈ run, nextIndex A i ≠ q)) ∨
      (∃ i j, run = [i, j] ∧ windingMismatch A i j = false)) :
    (hget (processRun A run) q).edge_crease_weight =
      (hget A q).edge_crease_weight := by
  rcases hcond with ⟨hq, hn⟩ | ⟨i, j, hrun, hm⟩
  · rcases run with _ | ⟨i, _ | ⟨j, _ | ⟨k, rest⟩⟩⟩
    · rfl
    · have hqi : q ≠ i := fun hh => hq (hh ▸ List.mem_cons_self i [])
      rw [processRun_single, hget_setEdgeCreaseInf, if_neg (fun hh => hqi hh.1.symm)]
    · have hqi : q ≠ i := fun hh => hq (hh ▸ List.mem_cons_self i [j])
      have hqj : q ≠ j :=
        fun hh => hq (by rw [hh]; exact List.mem_cons_of_mem i (List.mem_cons_self j []))
      rw [processRun_pair]
      split_ifs
      · rw [hget_setEdgeCreaseInf (setEdgeCreaseInf A i) j q,
          if_neg (fun hh => hqj hh.1.symm),
          hget_setEdgeCreaseInf A i q, if_neg (fun hh => hqi hh.1.symm)]
      · rw [edgeW_setOppositeAt, edgeW_setOppositeAt]
    · rw [processRun_big]
      rw [mnmFold_frame (i :: j :: k :: rest) A q hq
        (fun r hr => hn (by simp) r hr)]
  · subst hrun
    rw [processRun_pair, if_neg (by simp [hm]), edgeW_setOppositeAt, edgeW_setOppositeAt]

/-! ### processRun effects -/

theorem processRun_single_effect (A : List HalfEdge) (i : Nat) (hi : i < A.length) :
    (hget (processRun A [i]) i).edge_crease_weight = .inf := by
  rw [processRun_single, hget_setEdgeCreaseInf, if_pos ⟨rfl, hi⟩]

theorem processRun_pair_mismatch_effect (A : List HalfEdge) (i j : Nat)
    (hm : windingMismatch A i j = true) (hi : i < A.length) (hj : j < A.length) :
    (hget (processRun A [i, j]) i).edge_crease_weight = .inf ∧
    (hget (processRun A [i, j]) j).edge_crease_weight = .inf := by
  rw [processRun_pair, if_pos (by simp [hm])]
  constructor
  · by_cases hij : j = i
    · rw [hget_setEdgeCreaseInf (setEdgeCreaseInf A i) j i,
        if_pos ⟨hij, by rw [length_setEdgeCreaseInf]; exact hj⟩]
    · rw [hget_setEdgeCreaseInf (setEdgeCreaseInf A i) j i, if_neg (fun hh => hij hh.1),
        hget_setEdgeCreaseInf A i i, if_pos ⟨rfl, hi⟩]
  · rw [hget_setEdgeCreaseInf (setEdgeCreaseInf A i) j j,
      if_pos ⟨rfl, by rw [length_setEdgeCreaseInf]; exact hj⟩]

theorem processRun_pair_match_effect (A : List HalfEdge) (i j : Nat)
    (hm : windingMismatch A i j = false) (hi : i < A.length) (hj : j < A.length)
    (hij : i ≠ j) :
    (hget (processRun A [i, j]) i).opposite_half_edge_ofs = (j : Int) - (i : Int) ∧
    (hget (processRun A [i, j]) j).opposite_half_edge_ofs = (i : Int) - (j : Int) := by
  rw [processRun_pair, if_neg (by simp [hm])]
  constructor
  · rw [hget_setOppositeAt (setOppositeAt A i j) j i i, if_neg (fun hh => hij hh.1.symm),
      hget_setOppositeAt A i j i, if_pos ⟨rfl, hi⟩]
  · rw [hget_setOppositeAt (setOppositeAt A i j) j i j,
      if_pos ⟨rfl, by rw [length_setOppositeAt]; exact hj⟩]

theorem processRun_big_effect (A : List HalfEdge) (run : List Nat) (h3 : 3 ≤ run.length)
    (hb : ∀ i ∈ run, i < A.length ∧ nextIndex A i < A.length) (p : Nat) (hp : p ∈ run) :
    ((hget (processRun A run) p).edge_crease_weight = .inf ∧
     (hget (processRun A run) p).vertex_crease_weight = .inf ∧
     (hget (processRun A run) p).vertex_type = .NON_MANIFOLD_EDGE_VERTEX) ∧
    ((hget (processRun A run) (nextIndex A p)).edge_crease_weight = .inf ∧
     (hget (processRun A run) (nextIndex A p)).vertex_crease_weight = .inf ∧
     (hget (processRun A run) (nextIndex A p)).vertex_type =
       .NON_MANIFOLD_EDGE_VERTEX) := by
  rcases run with _ | ⟨i, _ | ⟨j, _ | ⟨k, rest⟩⟩⟩
  · simp at h3
  · simp at h3
  · simp at h3
  · rw [processRun_big]
    exact mnmFold_member_effect (i :: j :: k :: rest) A hb p hp

/-! ### linkRuns lemmas -/

theorem linkRuns_cons (A : List HalfEdge) (k : Nat) (run : List Nat)
    (rest : List (Nat × List Nat)) :
    linkRuns A ((k, run) :: rest) =
      if k = SENTINEL then A else linkRuns (processRun A run) rest := rfl

theorem length_linkRuns (A : List HalfEdge) (rs : List (Nat × List Nat)) :
    (linkRuns A rs).length = A.length := by
  induction rs generalizing A with
  | nil => rfl
  | cons kr rest ih =>
    rw [show linkRuns A (kr :: rest) =
        if kr.1 = SENTINEL then A else linkRuns (processRun A kr.2) rest from rfl]
    split_ifs
    · rfl
    · rw [ih, length_processRun]

theorem static_linkRuns (A : List HalfEdge) (rs : List (Nat × List Nat)) (q : Nat) :
    staticFields (hget (linkRuns A rs) q) = staticFields (hget A q) := by
  induction rs generalizing A with
  | nil => rfl
  | cons kr rest ih =>
    rw [show linkRuns A (kr :: rest) =
        if kr.1 = SENTINEL then A else linkRuns (processRun A kr.2) rest from rfl]
    split_ifs
    · rfl
    · rw [ih, static_processRun]

theorem linkRuns_append (A : List HalfEdge) (rs1 rs2 : List (Nat × List Nat))
    (h : ∀ kr ∈ rs1, kr.1 ≠ SENTINEL) :
    linkRuns A (rs1 ++ rs2) = linkRuns (linkRuns A rs1) rs2 := by
  induction rs1 generalizing A with
  | nil => rfl
  | cons kr rest ih =>
    have hk : kr.1 ≠ SENTINEL := h kr (List.mem_cons_self kr rest)
    obtain ⟨k, run⟩ := kr
    rw [List.cons_append, linkRuns_cons, if_neg hk, linkRuns_cons, if_neg hk,
      ih _ (fun x hx => h x (List.mem_cons_of_mem _ hx))]

theorem linkRuns_opp_frame (A : List HalfEdge) (rs : List (Nat × List Nat)) (q : Nat)
    (h : ∀ kr ∈ rs, kr.2.length = 2 → q ∉ kr.2) :
    (hget (linkRuns A rs) q).opposite_half_edge_ofs =
      (hget A q).opposite_half_edge_ofs := by
  induction rs generalizing A with
  | nil => rfl
  | cons kr rest ih =>
    rw [show linkRuns A (kr :: rest) =
        if kr.1 = SENTINEL then A else linkRuns (processRun A kr.2) rest from rfl]
    split_ifs
    · rfl
    · rw [ih _ (fun x hx => h x (List.mem_cons_of_mem _ hx)),
        opp_processRun_frame A kr.2 q (h kr (List.mem_cons_self kr rest))]

theorem linkRuns_vwvt_frame (A : List HalfEdge) (rs : List (Nat × List Nat)) (q : Nat)
    (h : ∀ kr ∈ rs, kr.2.length ≤ 2) :
    (hget (linkRuns A rs) q).vertex_crease_weight = (hget A q).vertex_crease_weight ∧
    (hget (linkRuns A rs) q).vertex_type = (hget A q).vertex_type := by
  induction rs generalizing A with
  | nil => exact ⟨rfl, rfl⟩
  | cons kr rest ih =>
    rw [show linkRuns A (kr :: rest) =
        if kr.1 = SENTINEL then A else linkRuns (processRun A kr.2) rest from rfl]
    split_ifs
    · exact ⟨rfl, rfl⟩
    · have hh := ih (processRun A kr.2) (fun x hx => h x (List.mem_cons_of_mem _ hx))
      rw [hh.1, hh.2, vw_processRun_frame A kr.2 q (h kr (List.mem_cons_self kr rest)),
        vt_processRun_frame A kr.2 q (h kr (List.mem_cons_self kr rest))]
      exact ⟨rfl, rfl⟩

theorem linkRuns_edgeW_sticky (A : List HalfEdge) (rs : List (Nat × List Nat)) (q : Nat)
    (hq : (hget A q).edge_crease_weight = .inf) :
    (hget (linkRuns A rs) q).edge_crease_weight = .inf := by
  induction rs generalizing A with
  | nil => exact hq
  | cons kr rest ih =>
    rw [show linkRuns A (kr :: rest) =
        if kr.1 = SENTINEL then A else linkRuns (processRun A kr.2) rest from rfl]
    split_ifs
    · exact hq
    · refine ih (processRun A kr.2) ?_
      rcases edgeW_processRun_cases A kr.2 q with hc | hc
      · rw [hc, hq]
      · exact hc

theorem linkRuns_vw_sticky (A : List HalfEdge) (rs : List (Nat × List Nat)) (q : Nat)
    (hq : (hget A q).vertex_crease_weight = .inf) :
    (hget (linkRuns A rs) q).vertex_crease_weight = .inf := by
  induction rs generalizing A with
  | nil => exact hq
  | cons kr rest ih =>
    rw [show linkRuns A (kr :: rest) =
        if kr.1 = SENTINEL then A else linkRuns (processRun A kr.2) rest from rfl]
    split_ifs
    · exact hq
    · refine ih (processRun A kr.2) ?_
      rcases vw_processRun_cases A kr.2 q with hc | hc
      · rw [hc, hq]
      · exact hc

theorem linkRuns_vt_sticky (A : List HalfEdge) (rs : List (Nat × List Nat)) (q : Nat)
    (hq : (hget A q).vertex_type = .NON_MANIFOLD_EDGE_VERTEX) :
    (hget (linkRuns A rs) q).vertex_type = .NON_MANIFOLD_EDGE_VERTEX := by
  induction rs generalizing A with
  | nil => exact hq
  | cons kr rest ih =>
    rw [show linkRuns A (kr :: rest) =
        if kr.1 = SENTINEL then A else linkRuns (processRun A kr.2) rest from rfl]
    split_ifs
    · exact hq
    · refine ih (processRun A kr.2) ?_
      rcases vt_processRun_cases A kr.2 q with hc | hc
      · rw [hc, hq]
      · exact hc

theorem linkRuns_edgeW_frame (A : List HalfEdge) (rs : List (Nat × List Nat)) (q : Nat)
    (h : ∀ kr ∈ rs, (q ∉ kr.2 ∧ (3 ≤ kr.2.length → ∀ i ∈ kr.2, nextIndex A i ≠ q)) ∨
      (∃ i j, kr.2 = [i, j] ∧ windingMismatch A i j = false)) :
    (hget (linkRuns A rs) q).edge_crease_weight = (hget A q).edge_crease_weight := by
  induction rs generalizing A with
  | nil => rfl
  | cons kr rest ih =>
    rw [show linkRuns A (kr :: rest) =
        if kr.1 = SENTINEL then A else linkRuns (processRun A kr.2) rest from rfl]
    split_ifs
    · rfl
    · have hstat : ∀ r, staticFields (hget (processRun A kr.2) r) =
          staticFields (hget A r) := fun r => static_processRun A kr.2 r
      rw [ih (processRun A kr.2) ?_,
        edgeW_processRun_frame A kr.2 q (h kr (List.mem_cons_self kr rest))]
      intro x hx
      rcases h x (List.mem_cons_of_mem _ hx) with ⟨h1, h2⟩ | ⟨i, j, hrun, hm⟩
      · refine Or.inl ⟨h1, ?_⟩
        intro h3 r hr
        rw [nextIndex_congr_static A _ hstat]
        exact h2 h3 r hr
      · refine Or.inr ⟨i, j, hrun, ?_⟩
        rw [windingMismatch_congr_static A _ hstat]
        exact hm

/-! ### Sorting lemmas -/

theorem insertByKey_perm (x : Nat × Nat) (l : List (Nat × Nat)) :
    (insertByKey x l).Perm (x :: l) := by
  induction l with
  | nil => exact List.Perm.refl _
  | cons y ys ih =>
    rw [insertByKey]
    split_ifs
    · exact List.Perm.refl _
    · exact (ih.cons y).trans (List.Perm.swap x y ys)

theorem sortKeyed_perm (l : List (Nat × Nat)) : (sortKeyed l).Perm l := by
  induction l with
  | nil => exact List.Perm.refl _
  | cons x xs ih =>
    exact (insertByKey_perm x (sortKeyed xs)).trans (ih.cons x)

theorem insertByKey_sorted (x : Nat × Nat) (l : List (Nat × Nat))
    (h : l.Pairwise (fun a b => a.1 ≤ b.1)) :
    (insertByKey x l).Pairwise (fun a b => a.1 ≤ b.1) := by
  induction l with
  | nil => simp [insertByKey]
  | cons y ys ih =>
    rw [List.pairwise_cons] at h
    rw [insertByKey]
    split_ifs with hle
    · refine List.Pairwise.cons ?_ (List.Pairwise.cons h.1 h.2)
      intro z hz
      rcases List.mem_cons.mp hz with hz | hz
      · rw [hz]
        exact hle
      · exact le_trans hle (h.1 z hz)
    · refine List.Pairwise.cons ?_ (ih h.2)
      intro z hz
      have hz2 := (insertByKey_perm x ys).mem_iff.mp hz
      rcases List.mem_cons.mp hz2 with hz2 | hz2
      · rw [hz2]
        omega
      · exact h.1 z hz2

theorem sortKeyed_sorted (l : List (Nat × Nat)) :
    (sortKeyed l).Pairwise (fun a b => a.1 ≤ b.1) := by
  induction l with
  | nil => simp [sortKeyed]
  | cons x xs ih => exact insertByKey_sorted x (sortKeyed xs) ih

/-! ### Run grouping lemmas -/

theorem groupRuns_join (l : List (Nat × Nat)) :
    (groupRuns l).flatMap (fun kr => kr.2.map (fun p => (kr.1, p))) = l := by
  induction l with
  | nil => rfl
  | cons x rest ih =>
    cases hgr : groupRuns rest with
    | nil =>
        rw [hgr] at ih
        simp only [List.flatMap_nil] at ih
        simp [groupRuns, hgr, ← ih]
    | cons kr rs =>
        obtain ⟨k1, r1⟩ := kr
        rw [hgr] at ih
        by_cases hk : x.1 = k1
        · simp only [groupRuns, hgr, if_pos hk]
          simp only [List.flatMap_cons, List.map_cons] at ih ⊢
          rw [List.cons_append, ih, ← hk]
        · simp only [groupRuns, hgr, if_neg hk]
          simp only [List.flatMap_cons, List.map_cons] at ih ⊢
          simp [ih]

theorem groupRuns_nonempty (l : List (Nat × Nat)) (kr : Nat × List Nat)
    (h : kr ∈ groupRuns l) : kr.2 ≠ [] := by
  induction l generalizing kr with
  | nil => cases h
  | cons x rest ih =>
    cases hgr : groupRuns rest with
    | nil =>
        rw [hgr] at ih
        simp only [groupRuns, hgr] at h
        rcases List.mem_singleton.mp h with h
        rw [h]
        simp
    | cons kr1 rs =>
        obtain ⟨k1, r1⟩ := kr1
        rw [hgr] at ih
        by_cases hk : x.1 = k1
        · simp only [groupRuns, hgr, if_pos hk] at h
          rcases List.mem_cons.mp h with h | h
          · rw [h]
            simp
          · exact ih kr (List.mem_cons_of_mem _ h)
        · simp only [groupRuns, hgr, if_neg hk] at h
          rcases List.mem_cons.mp h with h | h
          · rw [h]
            simp
          · exact ih kr h

theorem groupRuns_entry (l : List (Nat × Nat)) (k p : Nat) :
    (k, p) ∈ l ↔ ∃ r, (k, r) ∈ groupRuns l ∧ p ∈ r := by
  constructor
  · intro h
    rw [← groupRuns_join l] at h
    rcases List.mem_flatMap.mp h with ⟨kr, hkr, hmem⟩
    rcases List.mem_map.mp hmem with ⟨q, hq, heq⟩
    have hk : kr.1 = k := (Prod.mk.injEq _ _ _ _).mp heq |>.1
    have hp : q = p := (Prod.mk.injEq _ _ _ _).mp heq |>.2
    exact ⟨kr.2, by rw [← hk]; exact hkr, by rw [← hp]; exact hq⟩
  · rintro ⟨r, hr, hp⟩
    rw [← groupRuns_join l]
    exact List.mem_flatMap.mpr ⟨(k, r), hr, List.mem_map.mpr ⟨p, hp, rfl⟩⟩

theorem groupRuns_key_le_of_sorted_head (x : Nat × Nat) (rest : List (Nat × Nat))
    (hsort : (x :: rest).Pairwise (fun a b => a.1 ≤ b.1))
    (kr : Nat × List Nat) (h : kr ∈ groupRuns rest) : x.1 ≤ kr.1 := by
  have hne := groupRuns_nonempty rest kr h
  rcases List.exists_mem_of_ne_nil kr.2 hne with ⟨p, hp⟩
  have hmem : (kr.1, p) ∈ rest := (groupRuns_entry rest kr.1 p).mpr ⟨kr.2, by
    exact ⟨by rw [Prod.mk.eta]; exact h, hp⟩⟩
  rw [List.pairwise_cons] at hsort
  exact hsort.1 (kr.1, p) hmem

theorem groupRuns_pairwise_lt (l : List (Nat × Nat))
    (hsort : l.Pairwise (fun a b => a.1 ≤ b.1)) :
    (groupRuns l).Pairwise (fun a b => a.1 < b.1) := by
  induction l with
  | nil => simp [groupRuns]
  | cons x rest ih =>
    have htail : rest.Pairwise (fun a b => a.1 ≤ b.1) :=
      (List.pairwise_cons.mp hsort).2
    cases hgr : groupRuns rest with
    | nil => simp [groupRuns, hgr]
    | cons kr1 rs =>
        obtain ⟨k1, r1⟩ := kr1
        have ihp := ih htail
        rw [hgr] at ihp
        by_cases hk : x.1 = k1
        · simp only [groupRuns, hgr, if_pos hk]
          rw [List.pairwise_cons] at ihp
          exact List.Pairwise.cons (fun z hz => ihp.1 z hz) ihp.2
        · simp only [groupRuns, hgr, if_neg hk]
          have hxk1 : x.1 ≤ k1 := by
            have := groupRuns_key_le_of_sorted_head x rest hsort (k1, r1) (by
              rw [hgr]; exact List.mem_cons_self _ _)
            exact this
          have hlt : x.1 < k1 := lt_of_le_of_ne hxk1 hk
          refine List.Pairwise.cons ?_ ihp
          intro z hz
          rcases List.mem_cons.mp hz with hz | hz
          · rw [hz]
            exact hlt
          · have hk1z : k1 < z.1 := by
              rw [List.pairwise_cons] at ihp
              exact ihp.1 z hz
            omega

theorem groupRuns_char (l : List (Nat × Nat))
    (hsort : l.Pairwise (fun a b => a.1 ≤ b.1)) (kr : Nat × List Nat)
    (h : kr ∈ groupRuns l) : kr.2 = runOf l kr.1 := by
  induction l generalizing kr with
  | nil => cases h
  | cons x rest ih =>
    have htail : rest.Pairwise (fun a b => a.1 ≤ b.1) :=
      (List.pairwise_cons.mp hsort).2
    cases hgr : groupRuns rest with
    | nil =>
        have hrest : rest = [] := by
          have hj := groupRuns_join rest
          rw [hgr] at hj
          simpa using hj.symm
        subst hrest
        have hgr1 : groupRuns [x] = [(x.1, [x.2])] := rfl
        rw [hgr1] at h
        have h2 := List.mem_singleton.mp h
        rw [h2]
        show [x.2] = runOf [x] x.1
        unfold runOf
        rw [List.filter_cons, if_pos (by simp), List.filter_nil, List.map_cons,
          List.map_nil]
    | cons kr1 rs =>
        obtain ⟨k1, r1⟩ := kr1
        have hple := groupRuns_pairwise_lt rest htail
        rw [hgr] at hple
        by_cases hk : x.1 = k1
        · simp only [groupRuns, hgr, if_pos hk] at h
          rcases List.mem_cons.mp h with h | h
          · rw [h]
            show x.2 :: r1 = runOf (x :: rest) k1
            have hr1 : r1 = runOf rest k1 :=
              ih htail (k1, r1) (by rw [hgr]; exact List.mem_cons_self _ _)
            unfold runOf
            rw [List.filter_cons, if_pos (by simp [hk]), List.map_cons]
            unfold runOf at hr1
            rw [← hr1]
          · have hz := ih htail kr (by rw [hgr]; exact List.mem_cons_of_mem _ h)
            have hkrk : k1 < kr.1 := by
              rw [List.pairwise_cons] at hple
              exact hple.1 kr h
            rw [hz]
            show runOf rest kr.1 = runOf (x :: rest) kr.1
            unfold runOf
            rw [List.filter_cons, if_neg (by simp only [beq_iff_eq]; omega)]
        · simp only [groupRuns, hgr, if_neg hk] at h
          have hxle : ∀ z ∈ groupRuns rest, x.1 ≤ z.1 :=
            fun z hz => groupRuns_key_le_of_sorted_head x rest hsort z hz
          have hxk1 : x.1 ≤ k1 := by
            refine hxle (k1, r1) ?_
            rw [hgr]
            exact List.mem_cons_self _ _
          rcases List.mem_cons.mp h with h | h
          · rw [h]
            show [x.2] = runOf (x :: rest) x.1
            have hnone : runOf rest x.1 = [] := by
              simp only [runOf, List.map_eq_nil_iff, List.filter_eq_nil_iff]
              intro a ha hcontra
              have hax : a.1 = x.1 := by simpa using hcontra
              rcases (groupRuns_entry rest a.1 a.2).mp (by rw [Prod.mk.eta]; exact ha)
                with ⟨r, hr, hpr⟩
              rw [hgr] at hr
              rcases List.mem_cons.mp hr with hh | hh
              · have hak : a.1 = k1 := (Prod.mk.injEq _ _ _ _).mp hh |>.1
                omega
              · have hk1a : k1 < a.1 := by
                  rw [List.pairwise_cons] at hple
                  exact hple.1 _ hh
                omega
            unfold runOf
            rw [List.filter_cons, if_pos (by simp), List.map_cons]
            unfold runOf at hnone
            rw [hnone]
          · have hz := ih htail kr (by rw [hgr]; exact h)
            have hkrx : x.1 ≠ kr.1 := by
              rcases List.mem_cons.mp h with hh | hh
              · rw [hh]
                exact hk
              · have hk1kr : k1 < kr.1 := by
                  rw [List.pairwise_cons] at hple
                  exact hple.1 kr hh
                omega
            rw [hz]
            show runOf rest kr.1 = runOf (x :: rest) kr.1
            unfold runOf
            rw [List.filter_cons, if_neg (by simp only [beq_iff_eq]; exact hkrx)]

theorem groupRuns_positions (l : List (Nat × Nat)) :
    (groupRuns l).flatMap (fun kr => kr.2) = l.map (fun x => x.2) := by
  have h := congrArg (List.map (fun x : Nat × Nat => x.2)) (groupRuns_join l)
  rw [List.map_flatMap] at h
  simpa using h

/-! ### The sorted keyed array of a slot -/

theorem sortedKeyedOf_perm (inp : TopoInput) :
    (sortedKeyedOf inp).Perm (keyedEdges inp) := sortKeyed_perm _

theorem sortedKeyedOf_sorted (inp : TopoInput) :
    (sortedKeyedOf inp).Pairwise (fun a b => a.1 ≤ b.1) := sortKeyed_sorted _

theorem mem_keyedEdges (inp : TopoInput) (x : Nat × Nat) :
    x ∈ keyedEdges inp ↔ x.2 < numHalfEdges inp ∧ x.1 = keyAt inp x.2 := by
  unfold keyedEdges
  rw [List.mem_map]
  constructor
  · rintro ⟨p, hp, rfl⟩
    exact ⟨List.mem_range.mp hp, rfl⟩
  · rintro ⟨h1, h2⟩
    refine ⟨x.2, List.mem_range.mpr h1, ?_⟩
    rw [← h2, Prod.mk.eta]

theorem mem_sortedKeyedOf (inp : TopoInput) (x : Nat × Nat) :
    x ∈ sortedKeyedOf inp ↔ x.2 < numHalfEdges inp ∧ x.1 = keyAt inp x.2 := by
  rw [(sortedKeyedOf_perm inp).mem_iff]
  exact mem_keyedEdges inp x

theorem sortedKeyedOf_positions_nodup (inp : TopoInput) :
    ((sortedKeyedOf inp).map (fun x => x.2)).Nodup := by
  have hp : ((sortedKeyedOf inp).map (fun x => x.2)).Perm
      ((keyedEdges inp).map (fun x => x.2)) := (sortedKeyedOf_perm inp).map _
  have h2 : (keyedEdges inp).map (fun x => x.2) = List.range (numHalfEdges inp) := by
    unfold keyedEdges
    rw [List.map_map]
    have hcomp : ((fun x : Nat × Nat => x.2) ∘ fun p => (keyAt inp p, p)) =
        fun p : Nat => p := rfl
    rw [hcomp]
    exact List.map_id' _
  exact hp.nodup_iff.mpr (by rw [h2]; exact List.nodup_range _)

theorem mem_runOf (l : List (Nat × Nat)) (k q : Nat) :
    q ∈ runOf l k ↔ (k, q) ∈ l := by
  unfold runOf
  rw [List.mem_map]
  constructor
  · rintro ⟨a, ha, rfl⟩
    have hm := List.mem_filter.mp ha
    have hk : a.1 = k := by simpa using hm.2
    rw [← hk, Prod.mk.eta]
    exact hm.1
  · intro h
    exact ⟨(k, q), List.mem_filter.mpr ⟨h, by simp⟩, rfl⟩

theorem mem_runClassOf (inp : TopoInput) (q : Nat) (hq : q < numHalfEdges inp) :
    q ∈ runClassOf inp q := by
  unfold runClassOf
  rw [mem_runOf, mem_sortedKeyedOf]
  exact ⟨hq, rfl⟩

theorem runOf_pos_lt (inp : TopoInput) (k q : Nat)
    (hq : q ∈ runOf (sortedKeyedOf inp) k) : q < numHalfEdges inp := by
  rw [mem_runOf] at hq
  exact ((mem_sortedKeyedOf inp (k, q)).mp hq).1

theorem runOf_key (inp : TopoInput) (k q : Nat)
    (hq : q ∈ runOf (sortedKeyedOf inp) k) : keyAt inp q = k := by
  rw [mem_runOf] at hq
  exact ((mem_sortedKeyedOf inp (k, q)).mp hq).2.symm

theorem groupRuns_split (l : List (Nat × Nat))
    (hsort : l.Pairwise (fun a b => a.1 ≤ b.1)) (k : Nat) (hne : runOf l k ≠ []) :
    ∃ rs1 rs2, groupRuns l = rs1 ++ (k, runOf l k) :: rs2 ∧ ∀ kr ∈ rs1, kr.1 < k := by
  rcases List.exists_mem_of_ne_nil _ hne with ⟨p, hp⟩
  have hentry : (k, p) ∈ l := (mem_runOf l k p).mp hp
  rcases (groupRuns_entry l k p).mp hentry with ⟨r, hr, hpr⟩
  have hchar : r = runOf l k := groupRuns_char l hsort (k, r) hr
  rw [hchar] at hr
  rcases List.append_of_mem hr with ⟨rs1, rs2, hsplit⟩
  refine ⟨rs1, rs2, hsplit, ?_⟩
  have hpl := groupRuns_pairwise_lt l hsort
  rw [hsplit] at hpl
  intro kr hkr
  exact (List.pairwise_append.mp hpl).2.2 kr hkr (k, runOf l k) (List.mem_cons_self _ _)

/-- The complete decomposition of the link loop around the run of one key:
the loop is the prefix runs, then this key's run, then the suffix runs; the
prefix keys are not the sentinel, and no other run contains this run's
positions. -/
theorem linkPhase_decomp (inp : TopoInput) (k : Nat) (hk : k < SENTINEL)
    (hne : runOf (sortedKeyedOf inp) k ≠ []) :
    ∃ rs1 rs2,
      groupRuns (sortedKeyedOf inp) = rs1 ++ (k, runOf (sortedKeyedOf inp) k) :: rs2 ∧
      (∀ kr ∈ rs1, kr.1 ≠ SENTINEL) ∧
      (∀ A : List HalfEdge, linkRuns A (groupRuns (sortedKeyedOf inp)) =
        linkRuns (processRun (linkRuns A rs1) (runOf (sortedKeyedOf inp) k)) rs2) ∧
      (∀ q ∈ runOf (sortedKeyedOf inp) k,
        (∀ kr ∈ rs1, q ∉ kr.2) ∧ (∀ kr ∈ rs2, q ∉ kr.2)) := by
  rcases groupRuns_split _ (sortedKeyedOf_sorted inp) k hne with ⟨rs1, rs2, hsplit, hlt⟩
  have hns : ∀ kr ∈ rs1, kr.1 ≠ SENTINEL := by
    intro kr hkr
    exact Nat.ne_of_lt (lt_trans (hlt kr hkr) hk)
  refine ⟨rs1, rs2, hsplit, hns, ?_, ?_⟩
  · intro A
    rw [hsplit, linkRuns_append A rs1 _ hns, linkRuns_cons, if_neg (Nat.ne_of_lt hk)]
  · have hnodup := sortedKeyedOf_positions_nodup inp
    have hposj := groupRuns_positions (sortedKeyedOf inp)
    rw [hsplit, List.flatMap_append, List.flatMap_cons] at hposj
    rw [← hposj] at hnodup
    intro q hq
    constructor
    · intro kr hkr hmem
      rcases List.nodup_append.mp hnodup with ⟨_, _, hdisj⟩
      exact hdisj (List.mem_flatMap.mpr ⟨kr, hkr, hmem⟩) (List.mem_append_left _ hq)
    · intro kr hkr hmem
      rcases List.nodup_append.mp hnodup with ⟨_, hnd2, _⟩
      rcases List.nodup_append.mp hnd2 with ⟨_, _, hdisj2⟩
      exact hdisj2 hq (List.mem_flatMap.mpr ⟨kr, hkr, hmem⟩)

/-! ### Position decomposition -/

theorem pos_decomp_vals (vals : List Nat) (p : Nat) (hp : p < vals.sum) :
    ∃ f de, f < vals.length ∧ de < vals.getD f 0 ∧ p = faceStartEdge vals f + de := by
  induction vals generalizing p with
  | nil => simp at hp
  | cons v rest ih =>
    by_cases hv : p < v
    · exact ⟨0, p, by simp, by simpa using hv, by simp [faceStartEdge_zero]⟩
    · have hp2 : p - v < rest.sum := by
        simp only [List.sum_cons] at hp
        omega
      rcases ih (p - v) hp2 with ⟨f, de, h1, h2, h3⟩
      refine ⟨f + 1, de, by simpa using h1, by simpa using h2, ?_⟩
      rw [faceStartEdge_cons_succ]
      omega

theorem pos_decomp (inp : TopoInput) (p : Nat) (hp : p < numHalfEdges inp) :
    ∃ f de, f < numFaces inp ∧ de < valence inp f ∧
      p = faceStartEdge inp.faceVertices f + de :=
  pos_decomp_vals inp.faceVertices p hp

theorem nextIndex_emit_lt (inp : TopoInput) (p : Nat) (hp : p < numHalfEdges inp) :
    nextIndex (emitMesh inp) p < numHalfEdges inp := by
  rcases pos_decomp inp p hp with ⟨f, de, hf, hde, rfl⟩
  rw [nextIndex_emit inp f de hf hde]
  exact faceStart_add_lt inp f _ hf (Nat.mod_lt _ (by omega))

/-! ### Claims about the link loop -/

theorem linkPhase_eq (inp : TopoInput) (A : List HalfEdge) :
    linkPhase inp A = linkRuns A (groupRuns (sortedKeyedOf inp)) := rfl

theorem opp_processRun_pair_mismatch (A : List HalfEdge) (i j q : Nat)
    (hm : windingMismatch A i j = true) :
    (hget (processRun A [i, j]) q).opposite_half_edge_ofs =
      (hget A q).opposite_half_edge_ofs := by
  rw [processRun_pair, if_pos (by simp [hm]), opp_setEdgeCreaseInf, opp_setEdgeCreaseInf]

theorem emit_opp_zero (inp : TopoInput) (p : Nat) (hp : p < numHalfEdges inp) :
    (hget (emitMesh inp) p).opposite_half_edge_ofs = 0 := by
  rw [hget_emitMesh inp p hp]
  rfl

theorem runOf_nodup (inp : TopoInput) (k : Nat) :
    (runOf (sortedKeyedOf inp) k).Nodup := by
  have hsub : (runOf (sortedKeyedOf inp) k).Sublist
      ((sortedKeyedOf inp).map (fun x => x.2)) :=
    (List.filter_sublist _).map _
  exact hsub.nodup (sortedKeyedOf_positions_nodup inp)

/-- C5: a half-edge whose canonical key occurs exactly once in the sorted
keyed array (a boundary edge) leaves the link loop with infinite edge crease
weight and no opposite, whatever the authored crease registries contain. -/
theorem c5_boundary_edge (inp : TopoInput) (k p : Nat) (hk : k < SENTINEL)
    (hrun : runOf (sortedKeyedOf inp) k = [p]) :
    (hget (linkPhase inp (emitMesh inp)) p).edge_crease_weight = Weight.inf ∧
    hasOpposite (hget (linkPhase inp (emitMesh inp)) p) = false := by
  have hne : runOf (sortedKeyedOf inp) k ≠ [] := by rw [hrun]; simp
  have hp : p < numHalfEdges inp :=
    runOf_pos_lt inp k p (by rw [hrun]; exact List.mem_cons_self _ _)
  rcases linkPhase_decomp inp k hk hne with ⟨rs1, rs2, hsplit, hns, hexec, hdisj⟩
  have hdp := hdisj p (by rw [hrun]; exact List.mem_cons_self _ _)
  rw [linkPhase_eq, hexec (emitMesh inp), hrun]
  have hBlen : (linkRuns (emitMesh inp) rs1).length = numHalfEdges inp := by
    rw [length_linkRuns, length_emitMesh]
  constructor
  · apply linkRuns_edgeW_sticky
    exact processRun_single_effect _ p (by rw [hBlen]; exact hp)
  · have hoframe2 : (hget (linkRuns (processRun (linkRuns (emitMesh inp) rs1) [p]) rs2)
        p).opposite_half_edge_ofs =
        (hget (processRun (linkRuns (emitMesh inp) rs1) [p]) p).opposite_half_edge_ofs :=
      linkRuns_opp_frame _ rs2 p (fun kr hkr _ => hdp.2 kr hkr)
    have hoframe1 : (hget (processRun (linkRuns (emitMesh inp) rs1) [p])
        p).opposite_half_edge_ofs =
        (hget (linkRuns (emitMesh inp) rs1) p).opposite_half_edge_ofs :=
      opp_processRun_frame _ [p] p (by intro h; simp at h)
    have hoframe0 : (hget (linkRuns (emitMesh inp) rs1) p).opposite_half_edge_ofs =
        (hget (emitMesh inp) p).opposite_half_edge_ofs :=
      linkRuns_opp_frame _ rs1 p (fun kr hkr _ => hdp.1 kr hkr)
    rw [hasOpposite, hoframe2, hoframe1, hoframe0, emit_opp_zero inp p hp]
    rfl

/-- Witness for C5: an edge of the lone triangle is a boundary edge. -/
theorem c5_boundary_edge_witness :
    (hget (linkPhase meshTri (emitMesh meshTri)) 0).edge_crease_weight = Weight.inf ∧
    hasOpposite (hget (linkPhase meshTri (emitMesh meshTri)) 0) = false :=
  c5_boundary_edge meshTri 4294967296 0 (by decide) (by decide)

/-- C3: a run of exactly two half-edges sharing a canonical key either hits
the winding test (the `next` vertex of the first differs from the origin
vertex of the second), in which case both get infinite edge crease weight
and neither gets an opposite, or the two are linked as mutual opposites, so
each one's opposite's opposite is itself. -/
theorem c3_pair_run (inp : TopoInput) (k p q : Nat) (hk : k < SENTINEL)
    (hrun : runOf (sortedKeyedOf inp) k = [p, q]) :
    (windingMismatch (emitMesh inp) p q = true →
      (hget (linkPhase inp (emitMesh inp)) p).edge_crease_weight = Weight.inf ∧
      (hget (linkPhase inp (emitMesh inp)) q).edge_crease_weight = Weight.inf ∧
      hasOpposite (hget (linkPhase inp (emitMesh inp)) p) = false ∧
      hasOpposite (hget (linkPhase inp (emitMesh inp)) q) = false) ∧
    (windingMismatch (emitMesh inp) p q = false →
      (hget (linkPhase inp (emitMesh inp)) p).opposite_half_edge_ofs =
        (q : Int) - (p : Int) ∧
      (hget (linkPhase inp (emitMesh inp)) q).opposite_half_edge_ofs =
        (p : Int) - (q : Int) ∧
      oppositeIndex (linkPhase inp (emitMesh inp))
        (oppositeIndex (linkPhase inp (emitMesh inp)) p) = p ∧
      oppositeIndex (linkPhase inp (emitMesh inp))
        (oppositeIndex (linkPhase inp (emitMesh inp)) q) = q) := by
  have hne : runOf (sortedKeyedOf inp) k ≠ [] := by rw [hrun]; simp
  have hmp : p ∈ runOf (sortedKeyedOf inp) k := by
    rw [hrun]
    exact List.mem_cons_self _ _
  have hmq : q ∈ runOf (sortedKeyedOf inp) k := by
    rw [hrun]
    exact List.mem_cons_of_mem _ (List.mem_cons_self _ _)
  have hp : p < numHalfEdges inp := runOf_pos_lt inp k p hmp
  have hq : q < numHalfEdges inp := runOf_pos_lt inp k q hmq
  have hpq : p ≠ q := by
    have hnd := runOf_nodup inp k
    rw [hrun] at hnd
    rcases List.nodup_cons.mp hnd with ⟨hnp, _⟩
    exact fun h => hnp (h ▸ List.mem_cons_self _ _)
  rcases linkPhase_decomp inp k hk hne with ⟨rs1, rs2, hsplit, hns, hexec, hdisj⟩
  have hdp := hdisj p hmp
  have hdq := hdisj q hmq
  have hBlen : (linkRuns (emitMesh inp) rs1).length = numHalfEdges inp := by
    rw [length_linkRuns, length_emitMesh]
  have hstatB : ∀ r, staticFields (hget (linkRuns (emitMesh inp) rs1) r) =
      staticFields (hget (emitMesh inp) r) :=
    fun r => static_linkRuns (emitMesh inp) rs1 r
  have hwB : windingMismatch (linkRuns (emitMesh inp) rs1) p q =
      windingMismatch (emitMesh inp) p q :=
    windingMismatch_congr_static _ _ hstatB p q
  rw [linkPhase_eq, hexec (emitMesh inp), hrun]
  constructor
  · intro hm
    have hmB : windingMismatch (linkRuns (emitMesh inp) rs1) p q = true := by
      rw [hwB, hm]
    have heff := processRun_pair_mismatch_effect _ p q hmB
      (by rw [hBlen]; exact hp) (by rw [hBlen]; exact hq)
    have hop : (hget (linkRuns (processRun (linkRuns (emitMesh inp) rs1) [p, q]) rs2)
        p).opposite_half_edge_ofs = 0 := by
      rw [linkRuns_opp_frame _ rs2 p (fun kr hkr _ => hdp.2 kr hkr),
        opp_processRun_pair_mismatch _ p q p hmB,
        linkRuns_opp_frame _ rs1 p (fun kr hkr _ => hdp.1 kr hkr),
        emit_opp_zero inp p hp]
    have hoq : (hget (linkRuns (processRun (linkRuns (emitMesh inp) rs1) [p, q]) rs2)
        q).opposite_half_edge_ofs = 0 := by
      rw [linkRuns_opp_frame _ rs2 q (fun kr hkr _ => hdq.2 kr hkr),
        opp_processRun_pair_mismatch _ p q q hmB,
        linkRuns_opp_frame _ rs1 q (fun kr hkr _ => hdq.1 kr hkr),
        emit_opp_zero inp q hq]
    refine ⟨linkRuns_edgeW_sticky _ rs2 p heff.1, linkRuns_edgeW_sticky _ rs2 q heff.2,
      ?_, ?_⟩
    · rw [hasOpposite, hop]
      rfl
    · rw [hasOpposite, hoq]
      rfl
  · intro hm
    have hmB : windingMismatch (linkRuns (emitMesh inp) rs1) p q = false := by
      rw [hwB, hm]
    have heff := processRun_pair_match_effect _ p q hmB
      (by rw [hBlen]; exact hp) (by rw [hBlen]; exact hq) hpq
    have hop : (hget (linkRuns (processRun (linkRuns (emitMesh inp) rs1) [p, q]) rs2)
        p).opposite_half_edge_ofs = (q : Int) - (p : Int) := by
      rw [linkRuns_opp_frame _ rs2 p (fun kr hkr _ => hdp.2 kr hkr), heff.1]
    have hoq : (hget (linkRuns (processRun (linkRuns (emitMesh inp) rs1) [p, q]) rs2)
        q).opposite_half_edge_ofs = (p : Int) - (q : Int) := by
      rw [linkRuns_opp_frame _ rs2 q (fun kr hkr _ => hdq.2 kr hkr), heff.2]
    have hq2 : oppositeIndex
        (linkRuns (processRun (linkRuns (emitMesh inp) rs1) [p, q]) rs2) p = q := by
      rw [oppositeIndex, hop]
      omega
    have hp2 : oppositeIndex
        (linkRuns (processRun (linkRuns (emitMesh inp) rs1) [p, q]) rs2) q = p := by
      rw [oppositeIndex, hoq]
      omega
    exact ⟨hop, hoq, by rw [hq2, hp2], by rw [hp2, hq2]⟩

/-- Witness for C3: the shared edge of the two consistent triangles links as
mutual opposites. -/
theorem c3_pair_run_witness :
    (hget (linkPhase meshTwoTri (emitMesh meshTwoTri)) 1).opposite_half_edge_ofs =
      (3 : Int) - (1 : Int) ∧
    (hget (linkPhase meshTwoTri (emitMesh meshTwoTri)) 3).opposite_half_edge_ofs =
      (1 : Int) - (3 : Int) ∧
    oppositeIndex (linkPhase meshTwoTri (emitMesh meshTwoTri))
      (oppositeIndex (linkPhase meshTwoTri (emitMesh meshTwoTri)) 1) = 1 ∧
    oppositeIndex (linkPhase meshTwoTri (emitMesh meshTwoTri))
      (oppositeIndex (linkPhase meshTwoTri (emitMesh meshTwoTri)) 3) = 3 :=
  (c3_pair_run meshTwoTri 8589934593 1 3 (by decide) (by decide)).2 (by decide)

/-- C4: every member of a run of more than two half-edges sharing a key (a
non-manifold edge), and its `next` half-edge, leaves the link loop with the
non-manifold vertex type and infinite edge and vertex crease weights, and no
member receives an opposite. -/
theorem c4_nonmanifold_run (inp : TopoInput) (k p : Nat) (hk : k < SENTINEL)
    (hlen : 3 ≤ (runOf (sortedKeyedOf inp) k).length)
    (hp : p ∈ runOf (sortedKeyedOf inp) k) :
    ((hget (linkPhase inp (emitMesh inp)) p).vertex_type =
        VertexType.NON_MANIFOLD_EDGE_VERTEX ∧
      (hget (linkPhase inp (emitMesh inp)) p).edge_crease_weight = Weight.inf ∧
      (hget (linkPhase inp (emitMesh inp)) p).vertex_crease_weight = Weight.inf) ∧
    ((hget (linkPhase inp (emitMesh inp))
        (nextIndex (linkPhase inp (emitMesh inp)) p)).vertex_type =
        VertexType.NON_MANIFOLD_EDGE_VERTEX ∧
      (hget (linkPhase inp (emitMesh inp))
        (nextIndex (linkPhase inp (emitMesh inp)) p)).edge_crease_weight = Weight.inf ∧
      (hget (linkPhase inp (emitMesh inp))
        (nextIndex (linkPhase inp (emitMesh inp)) p)).vertex_crease_weight =
        Weight.inf) ∧
    hasOpposite (hget (linkPhase inp (emitMesh inp)) p) = false := by
  have hne : runOf (sortedKeyedOf inp) k ≠ [] := by
    intro h
    rw [h] at hlen
    simp at hlen
  have hplt : p < numHalfEdges inp := runOf_pos_lt inp k p hp
  rcases linkPhase_decomp inp k hk hne with ⟨rs1, rs2, hsplit, hns, hexec, hdisj⟩
  have hdp := hdisj p hp
  have hBlen : (linkRuns (emitMesh inp) rs1).length = numHalfEdges inp := by
    rw [length_linkRuns, length_emitMesh]
  have hstatB : ∀ r, staticFields (hget (linkRuns (emitMesh inp) rs1) r) =
      staticFields (hget (emitMesh inp) r) :=
    fun r => static_linkRuns (emitMesh inp) rs1 r
  have hnB : nextIndex (linkRuns (emitMesh inp) rs1) p = nextIndex (emitMesh inp) p :=
    nextIndex_congr_static _ _ hstatB p
  have hnL : nextIndex (linkPhase inp (emitMesh inp)) p = nextIndex (emitMesh inp) p := by
    refine nextIndex_congr_static _ _ ?_ p
    intro r
    rw [linkPhase_eq]
    exact static_linkRuns (emitMesh inp) _ r
  have hb : ∀ i ∈ runOf (sortedKeyedOf inp) k,
      i < (linkRuns (emitMesh inp) rs1).length ∧
      nextIndex (linkRuns (emitMesh inp) rs1) i <
        (linkRuns (emitMesh inp) rs1).length := by
    intro i hi
    have hilt : i < numHalfEdges inp := runOf_pos_lt inp k i hi
    rw [hBlen, nextIndex_congr_static _ _ hstatB i]
    exact ⟨hilt, nextIndex_emit_lt inp i hilt⟩
  have heff := processRun_big_effect (linkRuns (emitMesh inp) rs1)
    (runOf (sortedKeyedOf inp) k) hlen hb p hp
  rw [linkPhase_eq, hexec (emitMesh inp)] at hnL ⊢
  rw [hnL]
  rw [← hnB]
  refine ⟨⟨?_, ?_, ?_⟩, ⟨?_, ?_, ?_⟩, ?_⟩
  · exact linkRuns_vt_sticky _ rs2 p heff.1.2.2
  · exact linkRuns_edgeW_sticky _ rs2 p heff.1.1
  · exact linkRuns_vw_sticky _ rs2 p heff.1.2.1
  · exact linkRuns_vt_sticky _ rs2 _ heff.2.2.2
  · exact linkRuns_edgeW_sticky _ rs2 _ heff.2.1
  · exact linkRuns_vw_sticky _ rs2 _ heff.2.2.1
  · have hop : (hget (linkRuns (processRun (linkRuns (emitMesh inp) rs1)
        (runOf (sortedKeyedOf inp) k)) rs2) p).opposite_half_edge_ofs = 0 := by
      rw [linkRuns_opp_frame _ rs2 p (fun kr hkr _ => hdp.2 kr hkr),
        opp_processRun_frame _ _ p (fun h2 => absurd (h2 ▸ hlen) (by omega)),
        linkRuns_opp_frame _ rs1 p (fun kr hkr _ => hdp.1 kr hkr),
        emit_opp_zero inp p hplt]
    rw [hasOpposite, hop]
    rfl

/-- Witness for C4: the triple-shared edge of the three-triangle fan. -/
theorem c4_nonmanifold_run_witness :
    ((hget (linkPhase meshFan3 (emitMesh meshFan3)) 3).vertex_type =
        VertexType.NON_MANIFOLD_EDGE_VERTEX ∧
      (hget (linkPhase meshFan3 (emitMesh meshFan3)) 3).edge_crease_weight =
        Weight.inf ∧
      (hget (linkPhase meshFan3 (emitMesh meshFan3)) 3).vertex_crease_weight =
        Weight.inf) ∧
    ((hget (linkPhase meshFan3 (emitMesh meshFan3))
        (nextIndex (linkPhase meshFan3 (emitMesh meshFan3)) 3)).vertex_type =
        VertexType.NON_MANIFOLD_EDGE_VERTEX ∧
      (hget (linkPhase meshFan3 (emitMesh meshFan3))
        (nextIndex (linkPhase meshFan3 (emitMesh meshFan3)) 3)).edge_crease_weight =
        Weight.inf ∧
      (hget (linkPhase meshFan3 (emitMesh meshFan3))
        (nextIndex (linkPhase meshFan3 (emitMesh meshFan3)) 3)).vertex_crease_weight =
        Weight.inf) ∧
    hasOpposite (hget (linkPhase meshFan3 (emitMesh meshFan3)) 3) = false :=
  c4_nonmanifold_run meshFan3 4294967296 3 (by decide) (by decide) (by decide)

/-! ### C7: the updater frame -/

theorem length_updateWeights (inp : TopoInput) (u : UpdateFlags) (ext : ExternalFns)
    (A0 A : List HalfEdge) : (updateWeights inp u ext A0 A).length = A.length := by
  simp [updateWeights]

theorem hget_updateWeights (inp : TopoInput) (u : UpdateFlags) (ext : ExternalFns)
    (A0 A : List HalfEdge) (i : Nat) (hi : i < A.length) :
    hget (updateWeights inp u ext A0 A) i = updateEdgeFields inp u ext A0 i (hget A i) := by
  unfold updateWeights hget
  rw [List.getD_eq_getElem?_getD, List.getElem?_map, List.getElem?_range hi]
  rfl

theorem length_stampPatches (inp : TopoInput) (P : List HalfEdge → Nat → PatchType)
    (A : List HalfEdge) : (stampPatches inp P A).length = A.length := by
  simp [stampPatches]

theorem hget_stampPatches (inp : TopoInput) (P : List HalfEdge → Nat → PatchType)
    (A : List HalfEdge) (i : Nat) (hi : i < A.length) :
    hget (stampPatches inp P A) i =
      { hget A i with patch_type := P (patchView A) (faceOfPos inp i) } := by
  unfold stampPatches hget
  rw [List.getD_eq_getElem?_getD, List.getElem?_map, List.getElem?_range hi]
  rfl

theorem updateEdgeFields_statics (inp : TopoInput) (u : UpdateFlags) (ext : ExternalFns)
    (A0 : List HalfEdge) (i : Nat) (e0 : HalfEdge) :
    (updateEdgeFields inp u ext A0 i e0).vtx_index = e0.vtx_index ∧
    (updateEdgeFields inp u ext A0 i e0).next_half_edge_ofs = e0.next_half_edge_ofs ∧
    (updateEdgeFields inp u ext A0 i e0).prev_half_edge_ofs = e0.prev_half_edge_ofs ∧
    (updateEdgeFields inp u ext A0 i e0).opposite_half_edge_ofs =
      e0.opposite_half_edge_ofs ∧
    (updateEdgeFields inp u ext A0 i e0).vertex_type = e0.vertex_type := by
  simp only [updateEdgeFields, pinEdge]
  split_ifs <;> exact ⟨rfl, rfl, rfl, rfl, rfl⟩

theorem updateEdgeFields_edgeW_noOpp (inp : TopoInput) (u : UpdateFlags)
    (ext : ExternalFns) (A0 : List HalfEdge) (i : Nat) (e0 : HalfEdge)
    (h : hasOpposite e0 = false) :
    (updateEdgeFields inp u ext A0 i e0).edge_crease_weight =
      if u.updateVertexCreases = true ∧
          e0.vertex_type ≠ VertexType.NON_MANIFOLD_EDGE_VERTEX ∧
          inp.subdiv_mode = SubdivMode.PIN_ALL
      then Weight.inf else e0.edge_crease_weight := by
  simp only [updateEdgeFields, pinEdge]
  split_ifs <;> simp_all [hasOpposite]

theorem updateEdgeFields_vw_nm (inp : TopoInput) (u : UpdateFlags)
    (ext : ExternalFns) (A0 : List HalfEdge) (i : Nat) (e0 : HalfEdge)
    (h : e0.vertex_type = VertexType.NON_MANIFOLD_EDGE_VERTEX) :
    (updateEdgeFields inp u ext A0 i e0).vertex_crease_weight =
      e0.vertex_crease_weight := by
  simp only [updateEdgeFields, pinEdge]
  split_ifs <;> simp_all

/-- C7 (amended): the updater leaves every half-edge's vertex index and
next/prev/opposite offsets unchanged; for a half-edge without an opposite it
overwrites the edge crease weight only in pin-all mode on the vertex-crease
path (where the weight becomes infinite), keeping it unchanged otherwise;
and it never overwrites the vertex crease weight of a half-edge whose vertex
type is non-manifold. -/
theorem c7_updater_effects (inp : TopoInput) (u : UpdateFlags) (ext : ExternalFns)
    (A0 A : List HalfEdge) (i : Nat) (hi : i < A.length) :
    (hget (updateHalfEdges inp u ext A0 A) i).vtx_index = (hget A i).vtx_index ∧
    (hget (updateHalfEdges inp u ext A0 A) i).next_half_edge_ofs =
      (hget A i).next_half_edge_ofs ∧
    (hget (updateHalfEdges inp u ext A0 A) i).prev_half_edge_ofs =
      (hget A i).prev_half_edge_ofs ∧
    (hget (updateHalfEdges inp u ext A0 A) i).opposite_half_edge_ofs =
      (hget A i).opposite_half_edge_ofs ∧
    (hasOpposite (hget A i) = false →
      (hget (updateHalfEdges inp u ext A0 A) i).edge_crease_weight =
        (if u.updateVertexCreases = true ∧
            (hget A i).vertex_type ≠ VertexType.NON_MANIFOLD_EDGE_VERTEX ∧
            inp.subdiv_mode = SubdivMode.PIN_ALL
         then Weight.inf else (hget A i).edge_crease_weight)) ∧
    ((hget A i).vertex_type = VertexType.NON_MANIFOLD_EDGE_VERTEX →
      (hget (updateHalfEdges inp u ext A0 A) i).vertex_crease_weight =
        (hget A i).vertex_crease_weight) := by
  have hs := updateEdgeFields_statics inp u ext A0 i (hget A i)
  simp only [updateHalfEdges]
  by_cases hEV : u.updateEdgeCreases = true ∨ u.updateVertexCreases = true
  · rw [if_pos hEV,
      hget_stampPatches inp ext.patchTypeP (updateWeights inp u ext A0 A) i
        (by rw [length_updateWeights]; exact hi),
      hget_updateWeights inp u ext A0 A i hi]
    exact ⟨hs.1, hs.2.1, hs.2.2.1, hs.2.2.2.1,
      fun hno => updateEdgeFields_edgeW_noOpp inp u ext A0 i (hget A i) hno,
      fun hnm => updateEdgeFields_vw_nm inp u ext A0 i (hget A i) hnm⟩
  · rw [if_neg hEV, hget_updateWeights inp u ext A0 A i hi]
    exact ⟨hs.1, hs.2.1, hs.2.2.1, hs.2.2.2.1,
      fun hno => updateEdgeFields_edgeW_noOpp inp u ext A0 i (hget A i) hno,
      fun hnm => updateEdgeFields_vw_nm inp u ext A0 i (hget A i) hnm⟩

/-- Counterexample to C7 as stated: in pin-all mode, when vertex-crease
inputs changed, the updater overwrites the edge crease weight of a half-edge
that has no opposite (and whose stored weight was finite, as for a hole
face after a smooth build followed by a mode change). -/
theorem c7_counterexample :
    ¬ (hasOpposite (hget arrSingle 0) = false →
        (hget (updateHalfEdges meshTwoTriPinAll ⟨false, true, false⟩ extTrivial
            arrSingle arrSingle) 0).edge_crease_weight =
          (hget arrSingle 0).edge_crease_weight) := by
  decide

/-- Witness for C7 at a concrete input (smooth mode, all flags set). -/
theorem c7_updater_effects_witness :
    (hget (updateHalfEdges meshTwoTri ⟨true, true, true⟩ extTrivial arrSingle
        arrSingle) 0).opposite_half_edge_ofs = (hget arrSingle 0).opposite_half_edge_ofs ∧
    (hget (updateHalfEdges meshTwoTri ⟨true, true, true⟩ extTrivial arrSingle
        arrSingle) 0).edge_crease_weight = (hget arrSingle 0).edge_crease_weight := by
  have h := c7_updater_effects meshTwoTri ⟨true, true, true⟩ extTrivial arrSingle
    arrSingle 0 (by decide)
  refine ⟨h.2.2.2.1, ?_⟩
  have h2 := h.2.2.2.2.1 (by decide)
  rw [h2]
  decide

/-! ### Guarded frame lemmas (conditions only on runs the loop executes) -/

theorem processRun_frame_small (A : List HalfEdge) (run : List Nat) (q : Nat)
    (hlen : run.length ≤ 2) (hq : q ∉ run) :
    hget (processRun A run) q = hget A q := by
  rcases run with _ | ⟨i, _ | ⟨j, _ | ⟨k, rest⟩⟩⟩
  · rfl
  · have hqi : q ≠ i := fun hh => hq (hh ▸ List.mem_cons_self i [])
    rw [processRun_single, hget_setEdgeCreaseInf, if_neg (fun hh => hqi hh.1.symm)]
  · have hqi : q ≠ i := fun hh => hq (hh ▸ List.mem_cons_self i [j])
    have hqj : q ≠ j := fun hh => hq (by
      rw [hh]
      exact List.mem_cons_of_mem i (List.mem_cons_self j []))
    rw [processRun_pair]
    split_ifs
    · rw [hget_setEdgeCreaseInf (setEdgeCreaseInf A i) j q,
        if_neg (fun hh => hqj hh.1.symm),
        hget_setEdgeCreaseInf A i q, if_neg (fun hh => hqi hh.1.symm)]
    · rw [hget_setOppositeAt (setOppositeAt A i j) j i q,
        if_neg (fun hh => hqj hh.1.symm),
        hget_setOppositeAt A i j q, if_neg (fun hh => hqi hh.1.symm)]
  · simp at hlen

theorem linkRuns_frame_guard (A : List HalfEdge) (rs : List (Nat × List Nat)) (q : Nat)
    (h : ∀ kr ∈ rs, kr.1 ≠ SENTINEL → kr.2.length ≤ 2 ∧ q ∉ kr.2) :
    hget (linkRuns A rs) q = hget A q := by
  induction rs generalizing A with
  | nil => rfl
  | cons kr rest ih =>
    rw [show linkRuns A (kr :: rest) =
        if kr.1 = SENTINEL then A else linkRuns (processRun A kr.2) rest from rfl]
    split_ifs with hs
    · rfl
    · have hh := h kr (List.mem_cons_self kr rest) hs
      rw [ih _ (fun x hx => h x (List.mem_cons_of_mem _ hx)),
        processRun_frame_small A kr.2 q hh.1 hh.2]

theorem linkRuns_vwvt_frame_guard (A : List HalfEdge) (rs : List (Nat × List Nat))
    (q : Nat) (h : ∀ kr ∈ rs, kr.1 ≠ SENTINEL → kr.2.length ≤ 2) :
    (hget (linkRuns A rs) q).vertex_crease_weight = (hget A q).vertex_crease_weight ∧
    (hget (linkRuns A rs) q).vertex_type = (hget A q).vertex_type := by
  induction rs generalizing A with
  | nil => exact ⟨rfl, rfl⟩
  | cons kr rest ih =>
    rw [show linkRuns A (kr :: rest) =
        if kr.1 = SENTINEL then A else linkRuns (processRun A kr.2) rest from rfl]
    split_ifs with hs
    · exact ⟨rfl, rfl⟩
    · have hh := ih (processRun A kr.2) (fun x hx => h x (List.mem_cons_of_mem _ hx))
      rw [hh.1, hh.2,
        vw_processRun_frame A kr.2 q (h kr (List.mem_cons_self kr rest) hs),
        vt_processRun_frame A kr.2 q (h kr (List.mem_cons_self kr rest) hs)]
      exact ⟨rfl, rfl⟩

theorem linkRuns_edgeW_frame_guard (A : List HalfEdge) (rs : List (Nat × List Nat))
    (q : Nat)
    (h : ∀ kr ∈ rs, kr.1 ≠ SENTINEL →
      ((q ∉ kr.2 ∧ (3 ≤ kr.2.length → ∀ i ∈ kr.2, nextIndex A i ≠ q)) ∨
        (∃ i j, kr.2 = [i, j] ∧ windingMismatch A i j = false))) :
    (hget (linkRuns A rs) q).edge_crease_weight = (hget A q).edge_crease_weight := by
  induction rs generalizing A with
  | nil => rfl
  | cons kr rest ih =>
    rw [show linkRuns A (kr :: rest) =
        if kr.1 = SENTINEL then A else linkRuns (processRun A kr.2) rest from rfl]
    split_ifs with hs
    · rfl
    · have hstat : ∀ r, staticFields (hget (processRun A kr.2) r) =
          staticFields (hget A r) := fun r => static_processRun A kr.2 r
      rw [ih (processRun A kr.2) ?_,
        edgeW_processRun_frame A kr.2 q (h kr (List.mem_cons_self kr rest) hs)]
      intro x hx hxs
      rcases h x (List.mem_cons_of_mem _ hx) hxs with ⟨h1, h2⟩ | ⟨i, j, hrun, hm⟩
      · refine Or.inl ⟨h1, ?_⟩
        intro h3 r hr
        rw [nextIndex_congr_static A _ hstat]
        exact h2 h3 r hr
      · refine Or.inr ⟨i, j, hrun, ?_⟩
        rw [windingMismatch_congr_static A _ hstat]
        exact hm

/-! ### Key bounds -/

theorem idsGetD_bound (inp : TopoInput)
    (Hids : ∀ v ∈ inp.vertexIndices, v < 2 ^ 32 - 1) (i : Nat) :
    inp.vertexIndices.getD i 0 < 2 ^ 32 - 1 := by
  by_cases hlt : i < inp.vertexIndices.length
  · rw [List.getD_eq_getElem?_getD, List.getElem?_eq_getElem hlt]
    exact Hids _ (List.getElem_mem hlt)
  · rw [List.getD_eq_getElem?_getD, List.getElem?_eq_none (by omega)]
    norm_num

theorem pair64_lt_sentinel (x y : Nat) (hx : x < 2 ^ 32 - 1) (hy : y < 2 ^ 32 - 1) :
    pair64 x y < SENTINEL := by
  have h32 : (2 : Nat) ^ 32 = 4294967296 := by norm_num
  have h64 : SENTINEL = 18446744073709551615 := by norm_num [SENTINEL]
  unfold pair64
  rw [h32] at *
  rw [h64]
  split_ifs <;> omega

theorem keyAt_hole (inp : TopoInput) (q : Nat)
    (h : holeMem inp.holeSet (faceOfPos inp q) = true) : keyAt inp q = SENTINEL := by
  unfold keyAt
  unfold faceOfPos at h
  rw [if_pos h]

theorem keyAt_nothole (inp : TopoInput) (q : Nat)
    (h : holeMem inp.holeSet (faceOfPos inp q) = false) :
    keyAt inp q =
      pair64
        (inp.vertexIndices.getD
          (faceStartEdge inp.faceVertices (posFace inp.faceVertices q).1 +
            (posFace inp.faceVertices q).2) 0)
        (inp.vertexIndices.getD
          (cornerNextIndex (faceStartEdge inp.faceVertices (posFace inp.faceVertices q).1)
            (valence inp (posFace inp.faceVertices q).1)
            (posFace inp.faceVertices q).2) 0) := by
  unfold keyAt
  unfold faceOfPos at h
  rw [if_neg (by rw [h]; exact Bool.false_ne_true)]

theorem keyAt_lt_sentinel (inp : TopoInput)
    (Hids : ∀ v ∈ inp.vertexIndices, v < 2 ^ 32 - 1) (q : Nat)
    (h : holeMem inp.holeSet (faceOfPos inp q) = false) :
    keyAt inp q < SENTINEL := by
  rw [keyAt_nothole inp q h]
  exact pair64_lt_sentinel _ _ (idsGetD_bound inp Hids _) (idsGetD_bound inp Hids _)

theorem runOf_le_two_of_bounded (inp : TopoInput)
    (Hman : ∀ q, q < numHalfEdges inp → keyAt inp q ≠ SENTINEL →
      (runClassOf inp q).length ≤ 2)
    (k : Nat) (hk : k ≠ SENTINEL) : (runOf (sortedKeyedOf inp) k).length ≤ 2 := by
  cases hne : runOf (sortedKeyedOf inp) k with
  | nil => simp
  | cons p r =>
    have hp : p ∈ runOf (sortedKeyedOf inp) k := by
      rw [hne]
      exact List.mem_cons_self _ _
    have hq := runOf_pos_lt inp k p hp
    have hkey := runOf_key inp k p hp
    have hb := Hman p hq (by rw [hkey]; exact hk)
    unfold runClassOf at hb
    rw [hkey] at hb
    rw [hne] at hb
    exact hb

/-! ### Record extensionality helpers -/

theorem staticFields_explode (e1 e2 : HalfEdge) (h : staticFields e1 = staticFields e2) :
    e1.vtx_index = e2.vtx_index ∧ e1.next_half_edge_ofs = e2.next_half_edge_ofs ∧
    e1.prev_half_edge_ofs = e2.prev_half_edge_ofs ∧ e1.edge_level = e2.edge_level ∧
    e1.patch_type = e2.patch_type :=
  ⟨congrArg (fun t => t.1) h, congrArg (fun t => t.2.1) h,
    congrArg (fun t => t.2.2.1) h, congrArg (fun t => t.2.2.2.1) h,
    congrArg (fun t => t.2.2.2.2) h⟩

theorem halfEdge_fields_ext (e1 e2 : HalfEdge)
    (h1 : e1.vtx_index = e2.vtx_index)
    (h2 : e1.next_half_edge_ofs = e2.next_half_edge_ofs)
    (h3 : e1.prev_half_edge_ofs = e2.prev_half_edge_ofs)
    (h4 : e1.opposite_half_edge_ofs = e2.opposite_half_edge_ofs)
    (h5 : e1.edge_crease_weight = e2.edge_crease_weight)
    (h6 : e1.vertex_crease_weight = e2.vertex_crease_weight)
    (h7 : e1.edge_level = e2.edge_level)
    (h8 : e1.patch_type = e2.patch_type)
    (h9 : e1.vertex_type = e2.vertex_type) : e1 = e2 := by
  cases e1
  cases e2
  simp_all

/-! ### The manifold characterization of the link loop -/

/-- On a manifold slot (no key shared by more than two half-edges) with
bounded vertex ids, the link loop output at every position is exactly the
emitted record with the opposite offset and edge crease weight replaced by
their closed-form descriptions. -/
theorem linkPhase_char (inp : TopoInput)
    (Hids : ∀ v ∈ inp.vertexIndices, v < 2 ^ 32 - 1)
    (Hman : ∀ r, r < numHalfEdges inp → keyAt inp r ≠ SENTINEL →
      (runClassOf inp r).length ≤ 2)
    (q : Nat) (hq : q < numHalfEdges inp) :
    hget (linkPhase inp (emitMesh inp)) q =
      { edgeAt inp q with
          opposite_half_edge_ofs := oppSpec inp q
          edge_crease_weight := edgeWSpec inp q } := by
  have hman2 := runOf_le_two_of_bounded inp Hman
  have hrunchar : ∀ kr ∈ groupRuns (sortedKeyedOf inp),
      kr.2 = runOf (sortedKeyedOf inp) kr.1 :=
    fun kr hkr => groupRuns_char _ (sortedKeyedOf_sorted inp) kr hkr
  by_cases hhole : holeMem inp.holeSet (faceOfPos inp q) = true
  · have hks : keyAt inp q = SENTINEL := keyAt_hole inp q hhole
    have hfr : hget (linkPhase inp (emitMesh inp)) q = hget (emitMesh inp) q := by
      rw [linkPhase_eq]
      refine linkRuns_frame_guard _ _ q ?_
      intro kr hkr hs
      refine ⟨by rw [hrunchar kr hkr]; exact hman2 kr.1 hs, ?_⟩
      intro hmem
      rw [hrunchar kr hkr] at hmem
      exact hs (by rw [← runOf_key inp kr.1 q hmem, hks])
    rw [hfr, hget_emitMesh inp q hq]
    unfold oppSpec edgeWSpec
    rw [if_pos hks, if_pos hks]
    exact halfEdge_fields_ext _ _ rfl rfl rfl rfl rfl rfl rfl rfl rfl
  · have hholef : holeMem inp.holeSet (faceOfPos inp q) = false := by
      simpa using hhole
    have hks : keyAt inp q < SENTINEL := keyAt_lt_sentinel inp Hids q hholef
    have hkne : keyAt inp q ≠ SENTINEL := Nat.ne_of_lt hks
    have hmem : q ∈ runClassOf inp q := mem_runClassOf inp q hq
    have hlen : (runClassOf inp q).length ≤ 2 := Hman q hq hkne
    have hne : runOf (sortedKeyedOf inp) (keyAt inp q) ≠ [] := by
      intro h0
      unfold runClassOf at hmem
      rw [h0] at hmem
      cases hmem
    rcases linkPhase_decomp inp (keyAt inp q) hks hne with
      ⟨rs1, rs2, hsplit, hns, hexec, hdisj⟩
    have hrs1sub : ∀ kr ∈ rs1, kr ∈ groupRuns (sortedKeyedOf inp) := by
      intro kr hkr
      rw [hsplit]
      exact List.mem_append_left _ hkr
    have hrs2sub : ∀ kr ∈ rs2, kr ∈ groupRuns (sortedKeyedOf inp) := by
      intro kr hkr
      rw [hsplit]
      exact List.mem_append_right _ (List.mem_cons_of_mem _ hkr)
    have hdq := hdisj q hmem
    have hBlen : (linkRuns (emitMesh inp) rs1).length = numHalfEdges inp := by
      rw [length_linkRuns, length_emitMesh]
    have hstatB : ∀ r, staticFields (hget (linkRuns (emitMesh inp) rs1) r) =
        staticFields (hget (emitMesh inp) r) :=
      fun r => static_linkRuns (emitMesh inp) rs1 r
    have hrs1small : ∀ kr ∈ rs1, kr.2.length ≤ 2 := by
      intro kr hkr
      rw [hrunchar kr (hrs1sub kr hkr)]
      exact hman2 kr.1 (hns kr hkr)
    have hrs2small : ∀ kr ∈ rs2, kr.1 ≠ SENTINEL → kr.2.length ≤ 2 := by
      intro kr hkr hsent
      rw [hrunchar kr (hrs2sub kr hkr)]
      exact hman2 kr.1 hsent
    have hownlen : (runOf (sortedKeyedOf inp) (keyAt inp q)).length ≤ 2 :=
      hman2 _ hkne
    -- vertex weight and vertex type are never written on a manifold slot
    have hvwvt : (hget (linkPhase inp (emitMesh inp)) q).vertex_crease_weight =
        (hget (emitMesh inp) q).vertex_crease_weight ∧
        (hget (linkPhase inp (emitMesh inp)) q).vertex_type =
        (hget (emitMesh inp) q).vertex_type := by
      rw [linkPhase_eq, hexec (emitMesh inp)]
      have h2 := linkRuns_vwvt_frame_guard
        (processRun (linkRuns (emitMesh inp) rs1)
          (runOf (sortedKeyedOf inp) (keyAt inp q))) rs2 q hrs2small
      have h1v := vw_processRun_frame (linkRuns (emitMesh inp) rs1)
        (runOf (sortedKeyedOf inp) (keyAt inp q)) q hownlen
      have h1t := vt_processRun_frame (linkRuns (emitMesh inp) rs1)
        (runOf (sortedKeyedOf inp) (keyAt inp q)) q hownlen
      have h0 := linkRuns_vwvt_frame (emitMesh inp) rs1 q hrs1small
      exact ⟨by rw [h2.1, h1v, h0.1], by rw [h2.2, h1t, h0.2]⟩
    have hstat : staticFields (hget (linkPhase inp (emitMesh inp)) q) =
        staticFields (hget (emitMesh inp) q) := by
      rw [linkPhase_eq]
      exact static_linkRuns _ _ q
    rcases staticFields_explode _ _ hstat with ⟨hsv, hsn, hsp, hsl, hspt⟩
    rcases hvwvt with ⟨hvw, hvt⟩
    unfold runClassOf at hmem hlen
    -- case on the shape of the run
    rcases hR : runOf (sortedKeyedOf inp) (keyAt inp q) with _ | ⟨p1, _ | ⟨p2, rest⟩⟩
    · rw [hR] at hmem
      cases hmem
    · -- boundary run
      rw [hR] at hmem
      have hqp : q = p1 := by
        rcases List.mem_singleton.mp hmem with h
        exact h
      subst hqp
      have hedge : (hget (linkPhase inp (emitMesh inp)) q).edge_crease_weight =
          Weight.inf := by
        rw [linkPhase_eq, hexec (emitMesh inp), hR]
        exact linkRuns_edgeW_sticky _ rs2 q
          (processRun_single_effect _ q (by rw [hBlen]; exact hq))
      have hopp : (hget (linkPhase inp (emitMesh inp)) q).opposite_half_edge_ofs =
          0 := by
        rw [linkPhase_eq, hexec (emitMesh inp), hR]
        rw [linkRuns_opp_frame _ rs2 q (fun kr hkr _ => hdq.2 kr hkr),
          opp_processRun_frame _ [q] q (by intro h2; simp at h2),
          linkRuns_opp_frame _ rs1 q (fun kr hkr _ => hdq.1 kr hkr),
          emit_opp_zero inp q hq]
      refine halfEdge_fields_ext _ _ ?_ ?_ ?_ ?_ ?_ ?_ ?_ ?_ ?_
      · rw [hsv, hget_emitMesh inp q hq]
      · rw [hsn, hget_emitMesh inp q hq]
      · rw [hsp, hget_emitMesh inp q hq]
      · rw [hopp]
        unfold oppSpec runClassOf
        rw [if_neg hkne, hR]
      · rw [hedge]
        unfold edgeWSpec runClassOf
        rw [if_neg hkne, hR]
      · rw [hvw, hget_emitMesh inp q hq]
      · rw [hsl, hget_emitMesh inp q hq]
      · rw [hspt, hget_emitMesh inp q hq]
      · rw [hvt, hget_emitMesh inp q hq]
    · -- run of two (rest must be empty)
      have hrest : rest = [] := by
        have hlen2 := hlen
        rw [hR] at hlen2
        simp only [List.length_cons] at hlen2
        exact List.eq_nil_of_length_eq_zero (by omega)
      subst hrest
      rw [hR] at hmem
      have hp1 : p1 < numHalfEdges inp :=
        runOf_pos_lt inp (keyAt inp q) p1 (by rw [hR]; exact List.mem_cons_self _ _)
      have hp2 : p2 < numHalfEdges inp :=
        runOf_pos_lt inp (keyAt inp q) p2
          (by rw [hR]; exact List.mem_cons_of_mem _ (List.mem_cons_self _ _))
      have hp12 : p1 ≠ p2 := by
        have hnd := runOf_nodup inp (keyAt inp q)
        rw [hR] at hnd
        rcases List.nodup_cons.mp hnd with ⟨hnp, _⟩
        exact fun h => hnp (h ▸ List.mem_cons_self _ _)
      have hwmB : windingMismatch (linkRuns (emitMesh inp) rs1) p1 p2 =
          windingMismatch (emitMesh inp) p1 p2 :=
        windingMismatch_congr_static _ _ hstatB p1 p2
      by_cases hwm : windingMismatch (emitMesh inp) p1 p2 = true
      · -- forced crease
        have hedge : (hget (linkPhase inp (emitMesh inp)) q).edge_crease_weight =
            Weight.inf := by
          rw [linkPhase_eq, hexec (emitMesh inp), hR]
          have heff := processRun_pair_mismatch_effect (linkRuns (emitMesh inp) rs1)
            p1 p2 (by rw [hwmB]; exact hwm)
            (by rw [hBlen]; exact hp1) (by rw [hBlen]; exact hp2)
          rcases List.mem_cons.mp hmem with hqp | hqp
          · subst hqp
            exact linkRuns_edgeW_sticky _ rs2 q heff.1
          · rcases List.mem_singleton.mp hqp with hqp
            subst hqp
            exact linkRuns_edgeW_sticky _ rs2 q heff.2
        have hopp : (hget (linkPhase inp (emitMesh inp)) q).opposite_half_edge_ofs =
            0 := by
          rw [linkPhase_eq, hexec (emitMesh inp), hR]
          rw [linkRuns_opp_frame _ rs2 q (fun kr hkr _ => hdq.2 kr hkr),
            opp_processRun_pair_mismatch _ p1 p2 q (by rw [hwmB]; exact hwm),
            linkRuns_opp_frame _ rs1 q (fun kr hkr _ => hdq.1 kr hkr),
            emit_opp_zero inp q hq]
        refine halfEdge_fields_ext _ _ ?_ ?_ ?_ ?_ ?_ ?_ ?_ ?_ ?_
        · rw [hsv, hget_emitMesh inp q hq]
        · rw [hsn, hget_emitMesh inp q hq]
        · rw [hsp, hget_emitMesh inp q hq]
        · rw [hopp]
          unfold oppSpec runClassOf
          rw [if_neg hkne, hR]
          simp [hwm]
        · rw [hedge]
          unfold edgeWSpec runClassOf
          rw [if_neg hkne, hR]
          simp [hwm]
        · rw [hvw, hget_emitMesh inp q hq]
        · rw [hsl, hget_emitMesh inp q hq]
        · rw [hspt, hget_emitMesh inp q hq]
        · rw [hvt, hget_emitMesh inp q hq]
      · -- mutual opposites
        have hwmf : windingMismatch (emitMesh inp) p1 p2 = false := by
          simpa using hwm
        have heff := processRun_pair_match_effect (linkRuns (emitMesh inp) rs1)
          p1 p2 (by rw [hwmB]; exact hwmf)
          (by rw [hBlen]; exact hp1) (by rw [hBlen]; exact hp2) hp12
        have hedge : (hget (linkPhase inp (emitMesh inp)) q).edge_crease_weight =
            (hget (emitMesh inp) q).edge_crease_weight := by
          rw [linkPhase_eq, hexec (emitMesh inp), hR]
          have h2 := linkRuns_edgeW_frame_guard
            (processRun (linkRuns (emitMesh inp) rs1) [p1, p2]) rs2 q ?_
          rw [h2, edgeW_processRun_frame (linkRuns (emitMesh inp) rs1) [p1, p2] q
            (Or.inr ⟨p1, p2, rfl, by rw [hwmB]; exact hwmf⟩)]
          · exact linkRuns_edgeW_frame (emitMesh inp) rs1 q (fun kr hkr =>
              Or.inl ⟨hdq.1 kr hkr, fun h3 => absurd h3 (by
                have := hrs1small kr hkr
                omega)⟩)
          · intro kr hkr hsent
            refine Or.inl ⟨hdq.2 kr hkr, fun h3 => absurd h3 (by
              have := hrs2small kr hkr hsent
              omega)⟩
        have hopp : (hget (linkPhase inp (emitMesh inp)) q).opposite_half_edge_ofs =
            (if q = p1 then (p2 : Int) - (p1 : Int) else (p1 : Int) - (p2 : Int)) := by
          rw [linkPhase_eq, hexec (emitMesh inp), hR]
          rw [linkRuns_opp_frame _ rs2 q (fun kr hkr _ => hdq.2 kr hkr)]
          rcases List.mem_cons.mp hmem with hqp | hqp
          · rw [if_pos hqp]
            rw [hqp]
            exact heff.1
          · rcases List.mem_singleton.mp hqp with hqp
            rw [if_neg (by rw [hqp]; exact fun h => hp12 h.symm)]
            rw [hqp]
            exact heff.2
        refine halfEdge_fields_ext _ _ ?_ ?_ ?_ ?_ ?_ ?_ ?_ ?_ ?_
        · rw [hsv, hget_emitMesh inp q hq]
        · rw [hsn, hget_emitMesh inp q hq]
        · rw [hsp, hget_emitMesh inp q hq]
        · rw [hopp]
          unfold oppSpec runClassOf
          rw [if_neg hkne, hR]
          rcases List.mem_cons.mp hmem with hqp | hqp
          · simp [hwmf, hqp]
          · rcases List.mem_singleton.mp hqp with hqp
            simp [hwmf, hqp, Ne.symm hp12]
        · rw [hedge]
          unfold edgeWSpec runClassOf
          rw [if_neg hkne, hR, hget_emitMesh inp q hq]
          simp [hwmf]
        · rw [hvw, hget_emitMesh inp q hq]
        · rw [hsl, hget_emitMesh inp q hq]
        · rw [hspt, hget_emitMesh inp q hq]
        · rw [hvt, hget_emitMesh inp q hq]

/-! ### C1: no opposite iff infinite edge crease weight -/

theorem length_pinPhase (inp : TopoInput) (ext : ExternalFns) (A : List HalfEdge) :
    (pinPhase inp ext A).length = A.length := by
  simp [pinPhase]

theorem hget_pinPhase (inp : TopoInput) (ext : ExternalFns) (A : List HalfEdge)
    (i : Nat) (hi : i < A.length) :
    hget (pinPhase inp ext A) i =
      pinEdge inp.subdiv_mode ext.isCornerP ext.borderP i (hget A i) := by
  unfold pinPhase hget
  rw [List.getD_eq_getElem?_getD, List.getElem?_map, List.getElem?_range hi]
  rfl

theorem pinEdge_opp (mode : SubdivMode) (c b : Nat → Bool) (i : Nat) (e : HalfEdge) :
    (pinEdge mode c b i e).opposite_half_edge_ofs = e.opposite_half_edge_ofs := by
  unfold pinEdge
  split_ifs <;> rfl

theorem pinEdge_edgeW_of_ne_pinall (mode : SubdivMode) (c b : Nat → Bool) (i : Nat)
    (e : HalfEdge) (h : mode ≠ SubdivMode.PIN_ALL) :
    (pinEdge mode c b i e).edge_crease_weight = e.edge_crease_weight := by
  unfold pinEdge
  split_ifs <;> simp_all

theorem pinEdge_smooth (c b : Nat → Bool) (i : Nat) (e : HalfEdge) :
    pinEdge SubdivMode.SMOOTH_BOUNDARY c b i e = e := by
  unfold pinEdge
  split_ifs <;> simp_all

theorem mapLookup_ne_inf (m : List (Nat × Weight))
    (h : ∀ kv ∈ m, kv.2 ≠ Weight.inf) (k : Nat) :
    mapLookup m k (.fin 0) ≠ Weight.inf := by
  unfold mapLookup
  cases hf : m.find? (fun kv => kv.1 == k) with
  | none => simp
  | some kv => exact h kv (List.mem_of_find?_eq_some hf)

/-- C1 (amended): after a full build of a slot whose vertex ids are in range,
whose keys are manifold (no key shared by more than two half-edges), whose
authored edge-crease registry holds no infinite weight, and whose mode is
not pin-all: a half-edge of a non-hole face has no opposite iff its edge
crease weight is infinite. -/
theorem c1_no_opposite_iff_infinite (inp : TopoInput) (ext : ExternalFns)
    (Hids : ∀ v ∈ inp.vertexIndices, v < 2 ^ 32 - 1)
    (Hman : ∀ r, r < numHalfEdges inp → keyAt inp r ≠ SENTINEL →
      (runClassOf inp r).length ≤ 2)
    (Hreg : ∀ kv ∈ inp.edgeCreaseMap, kv.2 ≠ Weight.inf)
    (Hmode : inp.subdiv_mode ≠ SubdivMode.PIN_ALL)
    (q : Nat) (hq : q < numHalfEdges inp)
    (Hnothole : holeMem inp.holeSet (faceOfPos inp q) = false) :
    hasOpposite (hget (calculateHalfEdges inp ext) q) = false ↔
      (hget (calculateHalfEdges inp ext) q).edge_crease_weight = Weight.inf := by
  have hlenL : (linkPhase inp (emitMesh inp)).length = numHalfEdges inp := by
    rw [linkPhase_eq, length_linkRuns, length_emitMesh]
  have hco : hget (calculateHalfEdges inp ext) q =
      { pinEdge inp.subdiv_mode ext.isCornerP ext.borderP q
          (hget (linkPhase inp (emitMesh inp)) q) with
        patch_type := ext.patchTypeP
          (patchView (pinPhase inp ext (linkPhase inp (emitMesh inp))))
          (faceOfPos inp q) } := by
    unfold calculateHalfEdges
    rw [hget_stampPatches _ _ _ q (by rw [length_pinPhase, hlenL]; exact hq),
      hget_pinPhase _ _ _ q (by rw [hlenL]; exact hq)]
  have hopp2 : (hget (calculateHalfEdges inp ext) q).opposite_half_edge_ofs =
      oppSpec inp q := by
    rw [show (hget (calculateHalfEdges inp ext) q).opposite_half_edge_ofs =
        (pinEdge inp.subdiv_mode ext.isCornerP ext.borderP q
          (hget (linkPhase inp (emitMesh inp)) q)).opposite_half_edge_ofs
      from by rw [hco], pinEdge_opp, linkPhase_char inp Hids Hman q hq]
  have hew2 : (hget (calculateHalfEdges inp ext) q).edge_crease_weight =
      edgeWSpec inp q := by
    rw [show (hget (calculateHalfEdges inp ext) q).edge_crease_weight =
        (pinEdge inp.subdiv_mode ext.isCornerP ext.borderP q
          (hget (linkPhase inp (emitMesh inp)) q)).edge_crease_weight
      from by rw [hco], pinEdge_edgeW_of_ne_pinall _ _ _ _ _ Hmode,
      linkPhase_char inp Hids Hman q hq]
  rw [hasOpposite, hopp2, hew2]
  have hkne : keyAt inp q ≠ SENTINEL :=
    Nat.ne_of_lt (keyAt_lt_sentinel inp Hids q Hnothole)
  have hmem : q ∈ runClassOf inp q := mem_runClassOf inp q hq
  have hlen : (runClassOf inp q).length ≤ 2 := Hman q hq hkne
  unfold oppSpec edgeWSpec
  rw [if_neg hkne, if_neg hkne]
  rcases hR : runClassOf inp q with _ | ⟨p1, _ | ⟨p2, rest⟩⟩
  · rw [hR] at hmem
    cases hmem
  · simp
  · have hrest : rest = [] := by
      rw [hR] at hlen
      simp only [List.length_cons] at hlen
      exact List.eq_nil_of_length_eq_zero (by omega)
    subst hrest
    rw [hR] at hmem
    have hp12 : p1 ≠ p2 := by
      have hnd := runOf_nodup inp (keyAt inp q)
      unfold runClassOf at hR
      rw [hR] at hnd
      rcases List.nodup_cons.mp hnd with ⟨hnp, _⟩
      exact fun h => hnp (h ▸ List.mem_cons_self _ _)
    have hlook : (edgeAt inp q).edge_crease_weight ≠ Weight.inf :=
      mapLookup_ne_inf inp.edgeCreaseMap Hreg _
    by_cases hwm : windingMismatch (emitMesh inp) p1 p2 = true
    · simp [hwm]
    · have hwmf : windingMismatch (emitMesh inp) p1 p2 = false := by
        simpa using hwm
      rcases List.mem_cons.mp hmem with hqp | hqp
      · have hne2 : ((p2 : Int) - (p1 : Int)) ≠ 0 := by
          intro h0
          exact hp12 (by omega)
        refine iff_of_false ?_ ?_
        · simp [hwmf, hqp, hne2]
        · simp [hwmf]
          exact hlook
      · have hqp2 := List.mem_singleton.mp hqp
        have hqne : p2 ≠ p1 := Ne.symm hp12
        have hne2 : ((p1 : Int) - (p2 : Int)) ≠ 0 := by
          intro h0
          exact hp12 (by omega)
        refine iff_of_false ?_ ?_
        · simp [hwmf, hqp2, hqne, hne2]
        · simp [hwmf]
          exact hlook

/-- Counterexample to C1 as stated: the half-edges of a hole face get no
opposite (their sentinel key is never linked) yet keep their finite authored
edge crease weight, here 0. -/
theorem c1_counterexample :
    ¬ (hasOpposite (hget (calculateHalfEdges meshTriHole extTrivial) 0) = false ↔
        (hget (calculateHalfEdges meshTriHole extTrivial) 0).edge_crease_weight =
          Weight.inf) := by
  decide

/-- Witness for C1 on the two consistent triangles: the shared half-edge 1
has an opposite and finite weight, so the equivalence holds there. -/
theorem c1_no_opposite_iff_infinite_witness :
    hasOpposite (hget (calculateHalfEdges meshTwoTri extTrivial) 1) = false ↔
      (hget (calculateHalfEdges meshTwoTri extTrivial) 1).edge_crease_weight =
        Weight.inf :=
  c1_no_opposite_iff_infinite meshTwoTri extTrivial (by decide) (by decide) (by decide)
    (by decide) 1 (by decide) (by decide)

/-! ### Helpers for the update-refines-rebuild argument -/

theorem hget_list_ext (A B : List HalfEdge) (hlen : A.length = B.length)
    (h : ∀ i, i < A.length → hget A i = hget B i) : A = B := by
  apply List.ext_getElem hlen
  intro i h1 h2
  have hh := h i h1
  unfold hget at hh
  rw [List.getD_eq_getElem?_getD, List.getD_eq_getElem?_getD,
    List.getElem?_eq_getElem h1, List.getElem?_eq_getElem h2] at hh
  simpa using hh

theorem hget_oob (A : List HalfEdge) (r : Nat) (h : A.length ≤ r) :
    hget A r = default := by
  unfold hget
  rw [List.getD_eq_getElem?_getD, List.getElem?_eq_none_iff.mpr h]
  rfl

theorem length_linkPhase (inp : TopoInput) :
    (linkPhase inp (emitMesh inp)).length = numHalfEdges inp := by
  rw [linkPhase_eq, length_linkRuns, length_emitMesh]

theorem length_calculateHalfEdges (inp : TopoInput) (ext : ExternalFns) :
    (calculateHalfEdges inp ext).length = numHalfEdges inp := by
  unfold calculateHalfEdges
  rw [length_stampPatches, length_pinPhase, length_linkPhase]

theorem pinPhase_smooth_id (inp : TopoInput) (ext : ExternalFns) (A : List HalfEdge)
    (h : inp.subdiv_mode = SubdivMode.SMOOTH_BOUNDARY) :
    pinPhase inp ext A = A := by
  refine hget_list_ext _ _ (length_pinPhase inp ext A) ?_
  intro i hi
  rw [length_pinPhase] at hi
  rw [hget_pinPhase inp ext A i hi, h, pinEdge_smooth]

theorem hget_calc_smooth (inp : TopoInput) (ext : ExternalFns)
    (hmode : inp.subdiv_mode = SubdivMode.SMOOTH_BOUNDARY) (q : Nat)
    (hq : q < numHalfEdges inp) :
    hget (calculateHalfEdges inp ext) q =
      { hget (linkPhase inp (emitMesh inp)) q with
          patch_type := ext.patchTypeP (patchView (linkPhase inp (emitMesh inp)))
            (faceOfPos inp q) } := by
  unfold calculateHalfEdges
  rw [pinPhase_smooth_id inp ext _ hmode,
    hget_stampPatches inp ext.patchTypeP _ q (by rw [length_linkPhase]; exact hq)]

theorem length_patchView (A : List HalfEdge) : (patchView A).length = A.length := by
  simp [patchView]

theorem hget_patchView (A : List HalfEdge) (i : Nat) (hi : i < A.length) :
    hget (patchView A) i =
      { hget A i with patch_type := .COMPLEX_PATCH, edge_level := 0 } := by
  unfold patchView hget
  rw [List.getD_eq_getElem?_getD, List.getElem?_map, List.getElem?_eq_getElem hi,
    List.getD_eq_getElem?_getD, List.getElem?_eq_getElem hi]
  rfl

theorem nextIndex_congr_vn (A B : List HalfEdge)
    (h : ∀ r, (hget B r).vtx_index = (hget A r).vtx_index ∧
      (hget B r).next_half_edge_ofs = (hget A r).next_half_edge_ofs) (i : Nat) :
    nextIndex B i = nextIndex A i := by
  unfold nextIndex
  rw [(h i).2]

theorem windingMismatch_congr_vn (A B : List HalfEdge)
    (h : ∀ r, (hget B r).vtx_index = (hget A r).vtx_index ∧
      (hget B r).next_half_edge_ofs = (hget A r).next_half_edge_ofs) (i j : Nat) :
    windingMismatch B i j = windingMismatch A i j := by
  unfold windingMismatch
  rw [nextIndex_congr_vn A B h i, (h _).1, (h _).1]

theorem cornerNextIndex_eq (s N de : Nat) (hde : de < N) :
    cornerNextIndex s N de = s + (de + 1) % N := by
  unfold cornerNextIndex nextOfsAt
  by_cases hlast : de = N - 1
  · rw [if_pos hlast, show de + 1 = N from by omega, Nat.mod_self]
    omega
  · rw [if_neg hlast, Nat.mod_eq_of_lt (by omega)]
    omega

theorem updateEdgeFields_level (inp : TopoInput) (u : UpdateFlags) (ext : ExternalFns)
    (A0 : List HalfEdge) (i : Nat) (e0 : HalfEdge) :
    (updateEdgeFields inp u ext A0 i e0).edge_level =
      (if u.updateLevels = true then getEdgeLevel inp i else e0.edge_level) := by
  simp only [updateEdgeFields, pinEdge]
  split_ifs <;> simp_all

theorem updateEdgeFields_patch (inp : TopoInput) (u : UpdateFlags) (ext : ExternalFns)
    (A0 : List HalfEdge) (i : Nat) (e0 : HalfEdge) :
    (updateEdgeFields inp u ext A0 i e0).patch_type = e0.patch_type := by
  simp only [updateEdgeFields, pinEdge]
  split_ifs <;> rfl

theorem updateEdgeFields_edgeW_smooth (inp : TopoInput) (u : UpdateFlags)
    (ext : ExternalFns) (A0 : List HalfEdge) (i : Nat) (e0 : HalfEdge)
    (hmode : inp.subdiv_mode = SubdivMode.SMOOTH_BOUNDARY) :
    (updateEdgeFields inp u ext A0 i e0).edge_crease_weight =
      (if u.updateEdgeCreases = true ∧ hasOpposite e0 = true then
        mapLookup inp.edgeCreaseMap (geomEdgeKey A0 i) (.fin 0)
      else e0.edge_crease_weight) := by
  simp only [updateEdgeFields, pinEdge]
  split_ifs <;> simp_all [hasOpposite]

theorem updateEdgeFields_vw_smooth (inp : TopoInput) (u : UpdateFlags)
    (ext : ExternalFns) (A0 : List HalfEdge) (i : Nat) (e0 : HalfEdge)
    (hmode : inp.subdiv_mode = SubdivMode.SMOOTH_BOUNDARY) :
    (updateEdgeFields inp u ext A0 i e0).vertex_crease_weight =
      (if u.updateVertexCreases = true ∧
          e0.vertex_type ≠ VertexType.NON_MANIFOLD_EDGE_VERTEX then
        mapLookup inp.vertexCreaseMap (hget A0 i).vtx_index (.fin 0)
      else e0.vertex_crease_weight) := by
  simp only [updateEdgeFields, pinEdge]
  split_ifs <;> simp_all

/-- The updater's crease lookups through slot 0's half-edge array resolve to
exactly the keys the builder's emission uses, whenever slot 0's array has
the emitted vertex ids and next offsets. -/
theorem updater_lookup_keys (inpN : TopoInput) (A0 : List HalfEdge)
    (HA0 : ∀ p, p < numHalfEdges inpN →
      (hget A0 p).vtx_index =
        (edgeAt { inpN with vertexIndices := inpN.vertexIndices0 } p).vtx_index ∧
      (hget A0 p).next_half_edge_ofs =
        (edgeAt { inpN with vertexIndices := inpN.vertexIndices0 } p).next_half_edge_ofs)
    (q : Nat) (hq : q < numHalfEdges inpN) :
    mapLookup inpN.edgeCreaseMap (geomEdgeKey A0 q) (.fin 0) =
      (edgeAt inpN q).edge_crease_weight ∧
    mapLookup inpN.vertexCreaseMap (hget A0 q).vtx_index (.fin 0) =
      (edgeAt inpN q).vertex_crease_weight := by
  rcases pos_decomp inpN q hq with ⟨f, de, hf, hde, hqe⟩
  have hpf : posFace inpN.faceVertices (faceStartEdge inpN.faceVertices f + de) =
      (f, de) := posFace_eq inpN.faceVertices f de hf hde
  have hf0 : f < numFaces { inpN with vertexIndices := inpN.vertexIndices0 } := hf
  have hde0 : de < valence { inpN with vertexIndices := inpN.vertexIndices0 } f := hde
  have hq0 : q < numHalfEdges { inpN with vertexIndices := inpN.vertexIndices0 } := hq
  have hcni : cornerNextIndex (faceStartEdge inpN.faceVertices f)
      (valence inpN f) de =
      faceStartEdge inpN.faceVertices f + (de + 1) % valence inpN f :=
    cornerNextIndex_eq _ _ _ hde
  have hcnilt : faceStartEdge inpN.faceVertices f + (de + 1) % valence inpN f <
      numHalfEdges inpN :=
    faceStart_add_lt inpN f _ hf (Nat.mod_lt _ (by omega))
  have hvtx0 : (hget A0 q).vtx_index = inpN.vertexIndices0.getD q 0 := by
    rw [(HA0 q hq).1, hqe,
      edgeAt_spec { inpN with vertexIndices := inpN.vertexIndices0 } f de hf0 hde0]
  have hnext0 : nextIndex A0 q =
      faceStartEdge inpN.faceVertices f + (de + 1) % valence inpN f := by
    unfold nextIndex
    rw [(HA0 q hq).2, hqe,
      edgeAt_spec { inpN with vertexIndices := inpN.vertexIndices0 } f de hf0 hde0]
    show (((faceStartEdge inpN.faceVertices f + de : Nat) : Int) +
      nextOfsAt (valence inpN f) de).toNat = _
    rw [← cornerNextIndex_eq _ _ _ hde]
    unfold cornerNextIndex
    rfl
  have hvtxn : (hget A0 (nextIndex A0 q)).vtx_index =
      inpN.vertexIndices0.getD
        (faceStartEdge inpN.faceVertices f + (de + 1) % valence inpN f) 0 := by
    rw [hnext0, (HA0 _ hcnilt).1,
      edgeAt_spec { inpN with vertexIndices := inpN.vertexIndices0 } f
        ((de + 1) % valence inpN f) hf0 (Nat.mod_lt _ (by omega))]
  constructor
  · have hkey : geomEdgeKey A0 q =
        pair64 (inpN.vertexIndices0.getD q 0)
          (inpN.vertexIndices0.getD
            (faceStartEdge inpN.faceVertices f + (de + 1) % valence inpN f) 0) := by
      unfold geomEdgeKey
      rw [hvtx0, hvtxn]
    rw [hkey, hqe, edgeAt_spec inpN f de hf hde, hcni]
  · rw [hvtx0, hqe, edgeAt_spec inpN f de hf hde]

theorem getEdgeLevel_congr (inp1 inp2 : TopoInput) (h1 : inp1.levels = inp2.levels)
    (h2 : inp1.tessellationRate = inp2.tessellationRate) (p : Nat) :
    getEdgeLevel inp1 p = getEdgeLevel inp2 p := by
  unfold getEdgeLevel
  simp only [h1, h2]

theorem edgeAt_edgeW_congr (inp1 inp2 : TopoInput)
    (hfv : inp1.faceVertices = inp2.faceVertices)
    (hvi0 : inp1.vertexIndices0 = inp2.vertexIndices0)
    (hec : inp1.edgeCreaseMap = inp2.edgeCreaseMap) (p : Nat) :
    (edgeAt inp1 p).edge_crease_weight = (edgeAt inp2 p).edge_crease_weight := by
  simp only [edgeAt, valence, faceStartEdge, hfv, hvi0, hec]

theorem edgeAt_vw_congr (inp1 inp2 : TopoInput)
    (hfv : inp1.faceVertices = inp2.faceVertices)
    (hvi0 : inp1.vertexIndices0 = inp2.vertexIndices0)
    (hvc : inp1.vertexCreaseMap = inp2.vertexCreaseMap) (p : Nat) :
    (edgeAt inp1 p).vertex_crease_weight = (edgeAt inp2 p).vertex_crease_weight := by
  simp only [edgeAt, valence, faceStartEdge, hfv, hvi0, hvc]

theorem emit_shift_vn (inpN : TopoInput) (eO vO : List (Nat × Weight))
    (lO : Option (List ℚ)) (rO : ℚ) (r : Nat) :
    (hget (emitMesh (withMaps inpN eO vO lO rO)) r).vtx_index =
      (hget (emitMesh inpN) r).vtx_index ∧
    (hget (emitMesh (withMaps inpN eO vO lO rO)) r).next_half_edge_ofs =
      (hget (emitMesh inpN) r).next_half_edge_ofs := by
  by_cases hr : r < numHalfEdges inpN
  · rw [hget_emitMesh (withMaps inpN eO vO lO rO) r hr, hget_emitMesh inpN r hr]
    exact ⟨rfl, rfl⟩
  · rw [hget_oob _ r (by rw [length_emitMesh]; exact Nat.le_of_not_lt hr),
      hget_oob _ r (by rw [length_emitMesh]; exact Nat.le_of_not_lt hr)]
    exact ⟨rfl, rfl⟩

theorem windingMismatch_shift (inpN : TopoInput) (eO vO : List (Nat × Weight))
    (lO : Option (List ℚ)) (rO : ℚ) (p1 p2 : Nat) :
    windingMismatch (emitMesh (withMaps inpN eO vO lO rO)) p1 p2 =
      windingMismatch (emitMesh inpN) p1 p2 :=
  windingMismatch_congr_vn (emitMesh inpN) (emitMesh (withMaps inpN eO vO lO rO))
    (emit_shift_vn inpN eO vO lO rO) p1 p2

theorem oppSpec_shift (inpN : TopoInput) (eO vO : List (Nat × Weight))
    (lO : Option (List ℚ)) (rO : ℚ) (q : Nat) :
    oppSpec (withMaps inpN eO vO lO rO) q = oppSpec inpN q := by
  have hkey : keyAt (withMaps inpN eO vO lO rO) q = keyAt inpN q := rfl
  have hrun : runClassOf (withMaps inpN eO vO lO rO) q = runClassOf inpN q := rfl
  unfold oppSpec
  rw [hkey, hrun]
  by_cases hk : keyAt inpN q = SENTINEL
  · rw [if_pos hk, if_pos hk]
  · rw [if_neg hk, if_neg hk]
    rcases hrc : runClassOf inpN q with _ | ⟨p1, _ | ⟨p2, _ | ⟨p3, r3⟩⟩⟩ <;>
      simp [windingMismatch_shift inpN eO vO lO rO]

theorem edgeWSpec_shift (inpN : TopoInput) (eO vO : List (Nat × Weight))
    (lO : Option (List ℚ)) (rO : ℚ) (hec : eO = inpN.edgeCreaseMap) (q : Nat) :
    edgeWSpec (withMaps inpN eO vO lO rO) q = edgeWSpec inpN q := by
  have hkey : keyAt (withMaps inpN eO vO lO rO) q = keyAt inpN q := rfl
  have hrun : runClassOf (withMaps inpN eO vO lO rO) q = runClassOf inpN q := rfl
  have hew : (edgeAt (withMaps inpN eO vO lO rO) q).edge_crease_weight =
      (edgeAt inpN q).edge_crease_weight :=
    edgeAt_edgeW_congr (withMaps inpN eO vO lO rO) inpN rfl rfl hec q
  unfold edgeWSpec
  rw [hkey, hrun]
  by_cases hk : keyAt inpN q = SENTINEL
  · rw [if_pos hk, if_pos hk]
    exact hew
  · rw [if_neg hk, if_neg hk]
    rcases hrc : runClassOf inpN q with _ | ⟨p1, _ | ⟨p2, _ | ⟨p3, r3⟩⟩⟩ <;>
      simp [windingMismatch_shift inpN eO vO lO rO, hew]

theorem pinEdge_ne_pinall (mode : SubdivMode) (c b : Nat → Bool) (i : Nat)
    (e : HalfEdge) (h : mode ≠ SubdivMode.PIN_ALL) :
    pinEdge mode c b i e =
      { e with vertex_crease_weight :=
          if pinHit mode c b i = true then .inf else e.vertex_crease_weight } := by
  unfold pinEdge pinHit
  rcases mode <;> rcases hc : c i <;> rcases hb : b i <;> simp_all

theorem updateEdgeFields_edgeW_np (inp : TopoInput) (u : UpdateFlags)
    (ext : ExternalFns) (A0 : List HalfEdge) (i : Nat) (e0 : HalfEdge)
    (hmode : inp.subdiv_mode ≠ SubdivMode.PIN_ALL) :
    (updateEdgeFields inp u ext A0 i e0).edge_crease_weight =
      (if u.updateEdgeCreases = true ∧ hasOpposite e0 = true then
        mapLookup inp.edgeCreaseMap (geomEdgeKey A0 i) (.fin 0)
      else e0.edge_crease_weight) := by
  simp only [updateEdgeFields, pinEdge]
  split_ifs <;> simp_all [hasOpposite]

theorem updateEdgeFields_vw_np (inp : TopoInput) (u : UpdateFlags)
    (ext : ExternalFns) (A0 : List HalfEdge) (i : Nat) (e0 : HalfEdge)
    (hmode : inp.subdiv_mode ≠ SubdivMode.PIN_ALL) :
    (updateEdgeFields inp u ext A0 i e0).vertex_crease_weight =
      (if u.updateVertexCreases = true ∧
          e0.vertex_type ≠ VertexType.NON_MANIFOLD_EDGE_VERTEX then
        (if pinHit inp.subdiv_mode ext.isCornerP ext.borderP i = true then .inf
         else mapLookup inp.vertexCreaseMap (hget A0 i).vtx_index (.fin 0))
      else e0.vertex_crease_weight) := by
  simp only [updateEdgeFields, pinEdge_ne_pinall _ _ _ _ _ hmode]
  split_ifs <;> simp_all

theorem hget_calc (inp : TopoInput) (ext : ExternalFns) (q : Nat)
    (hq : q < numHalfEdges inp) :
    hget (calculateHalfEdges inp ext) q =
      { hget (pinPhase inp ext (linkPhase inp (emitMesh inp))) q with
          patch_type := ext.patchTypeP
            (patchView (pinPhase inp ext (linkPhase inp (emitMesh inp))))
            (faceOfPos inp q) } := by
  unfold calculateHalfEdges
  rw [hget_stampPatches inp ext.patchTypeP _ q
    (by rw [length_pinPhase, length_linkPhase]; exact hq)]

/-- On a manifold slot in any mode but pin-all, the array entering the patch
classifier is the emitted record with the closed-form opposite and edge
crease weight, and the vertex crease weight pinned to infinite exactly on
the mode's pin hits. -/
theorem pinnedLink_char (inp : TopoInput) (ext : ExternalFns)
    (Hids : ∀ v ∈ inp.vertexIndices, v < 2 ^ 32 - 1)
    (Hman : ∀ r, r < numHalfEdges inp → keyAt inp r ≠ SENTINEL →
      (runClassOf inp r).length ≤ 2)
    (hmode : inp.subdiv_mode ≠ SubdivMode.PIN_ALL) (q : Nat)
    (hq : q < numHalfEdges inp) :
    hget (pinPhase inp ext (linkPhase inp (emitMesh inp))) q =
      { edgeAt inp q with
          opposite_half_edge_ofs := oppSpec inp q
          edge_crease_weight := edgeWSpec inp q
          vertex_crease_weight :=
            if pinHit inp.subdiv_mode ext.isCornerP ext.borderP q = true then .inf
            else (edgeAt inp q).vertex_crease_weight } := by
  rw [hget_pinPhase inp ext _ q (by rw [length_linkPhase]; exact hq),
    linkPhase_char inp Hids Hman q hq,
    pinEdge_ne_pinall inp.subdiv_mode ext.isCornerP ext.borderP q _ hmode]

/-- Per-index core of the update-refines-rebuild argument: on a manifold,
hole-free slot in any mode but pin-all whose flags cover every changed
input, the updater's per-half-edge pass applied to the previous build's
record yields exactly the new build's linked-and-pinned record (with the
previous build's patch stamp, refreshed later iff a crease class changed). -/
theorem updateEdgeFields_char (inpN : TopoInput) (eO vO : List (Nat × Weight))
    (lO : Option (List ℚ)) (rO : ℚ) (u : UpdateFlags) (ext : ExternalFns)
    (A0 : List HalfEdge)
    (Hids : ∀ v ∈ inpN.vertexIndices, v < 2 ^ 32 - 1)
    (Hman : ∀ r, r < numHalfEdges inpN → keyAt inpN r ≠ SENTINEL →
      (runClassOf inpN r).length ≤ 2)
    (Hmode : inpN.subdiv_mode ≠ SubdivMode.PIN_ALL)
    (Hholes : inpN.holeSet = [])
    (HuL : u.updateLevels = true ∨ (lO = inpN.levels ∧ rO = inpN.tessellationRate))
    (HuE : u.updateEdgeCreases = true ∨ eO = inpN.edgeCreaseMap)
    (HuV : u.updateVertexCreases = true ∨ vO = inpN.vertexCreaseMap)
    (HA0 : ∀ p, p < numHalfEdges inpN →
      (hget A0 p).vtx_index =
        (edgeAt { inpN with vertexIndices := inpN.vertexIndices0 } p).vtx_index ∧
      (hget A0 p).next_half_edge_ofs =
        (edgeAt { inpN with vertexIndices := inpN.vertexIndices0 } p).next_half_edge_ofs)
    (q : Nat) (hq : q < numHalfEdges inpN) :
    updateEdgeFields inpN u ext A0 q
        (hget (calculateHalfEdges (withMaps inpN eO vO lO rO) ext) q) =
      { hget (pinPhase inpN ext (linkPhase inpN (emitMesh inpN))) q with
          patch_type := ext.patchTypeP
            (patchView (pinPhase (withMaps inpN eO vO lO rO) ext
              (linkPhase (withMaps inpN eO vO lO rO)
                (emitMesh (withMaps inpN eO vO lO rO)))))
            (faceOfPos inpN q) } := by
  have hmodeO : (withMaps inpN eO vO lO rO).subdiv_mode ≠
      SubdivMode.PIN_ALL := Hmode
  have HidsO : ∀ v ∈ (withMaps inpN eO vO lO rO).vertexIndices, v < 2 ^ 32 - 1 := Hids
  have HmanO : ∀ r, r < numHalfEdges (withMaps inpN eO vO lO rO) →
      keyAt (withMaps inpN eO vO lO rO) r ≠ SENTINEL →
      (runClassOf (withMaps inpN eO vO lO rO) r).length ≤ 2 := Hman
  have hqO : q < numHalfEdges (withMaps inpN eO vO lO rO) := hq
  have hcharO := pinnedLink_char (withMaps inpN eO vO lO rO) ext HidsO HmanO
    hmodeO q hqO
  have hcharN := pinnedLink_char inpN ext Hids Hman Hmode q hq
  have he0 : hget (calculateHalfEdges (withMaps inpN eO vO lO rO) ext) q =
      { edgeAt (withMaps inpN eO vO lO rO) q with
          opposite_half_edge_ofs := oppSpec (withMaps inpN eO vO lO rO) q
          edge_crease_weight := edgeWSpec (withMaps inpN eO vO lO rO) q
          vertex_crease_weight :=
            if pinHit (withMaps inpN eO vO lO rO).subdiv_mode ext.isCornerP
                ext.borderP q = true then .inf
            else (edgeAt (withMaps inpN eO vO lO rO) q).vertex_crease_weight
          patch_type := ext.patchTypeP
            (patchView (pinPhase (withMaps inpN eO vO lO rO) ext
              (linkPhase (withMaps inpN eO vO lO rO)
                (emitMesh (withMaps inpN eO vO lO rO)))))
            (faceOfPos inpN q) } := by
    rw [hget_calc (withMaps inpN eO vO lO rO) ext q hqO, hcharO]
    rfl
  have htgt : ({ hget (pinPhase inpN ext (linkPhase inpN (emitMesh inpN))) q with
      patch_type := ext.patchTypeP
        (patchView (pinPhase (withMaps inpN eO vO lO rO) ext
          (linkPhase (withMaps inpN eO vO lO rO)
            (emitMesh (withMaps inpN eO vO lO rO)))))
        (faceOfPos inpN q) } : HalfEdge) =
      { edgeAt inpN q with
          opposite_half_edge_ofs := oppSpec inpN q
          edge_crease_weight := edgeWSpec inpN q
          vertex_crease_weight :=
            if pinHit inpN.subdiv_mode ext.isCornerP ext.borderP q = true
            then .inf else (edgeAt inpN q).vertex_crease_weight
          patch_type := ext.patchTypeP
            (patchView (pinPhase (withMaps inpN eO vO lO rO) ext
              (linkPhase (withMaps inpN eO vO lO rO)
                (emitMesh (withMaps inpN eO vO lO rO)))))
            (faceOfPos inpN q) } := by
    rw [hcharN]
  rw [he0, htgt]
  have hholef : holeMem inpN.holeSet (faceOfPos inpN q) = false := by
    rw [Hholes]; rfl
  have hkne : keyAt inpN q ≠ SENTINEL :=
    Nat.ne_of_lt (keyAt_lt_sentinel inpN Hids q hholef)
  have hqmem : q ∈ runClassOf inpN q := mem_runClassOf inpN q hq
  have hqlen : (runClassOf inpN q).length ≤ 2 := Hman q hq hkne
  have hnodup : (runClassOf inpN q).Nodup := runOf_nodup inpN (keyAt inpN q)
  obtain ⟨hs1, hs2, hs3, hs4, hs5⟩ := updateEdgeFields_statics inpN u ext A0 q
    { edgeAt (withMaps inpN eO vO lO rO) q with
        opposite_half_edge_ofs := oppSpec (withMaps inpN eO vO lO rO) q
        edge_crease_weight := edgeWSpec (withMaps inpN eO vO lO rO) q
        vertex_crease_weight :=
          if pinHit (withMaps inpN eO vO lO rO).subdiv_mode ext.isCornerP
              ext.borderP q = true then .inf
          else (edgeAt (withMaps inpN eO vO lO rO) q).vertex_crease_weight
        patch_type := ext.patchTypeP
          (patchView (pinPhase (withMaps inpN eO vO lO rO) ext
            (linkPhase (withMaps inpN eO vO lO rO)
              (emitMesh (withMaps inpN eO vO lO rO)))))
          (faceOfPos inpN q) }
  refine halfEdge_fields_ext _ _ ?_ ?_ ?_ ?_ ?_ ?_ ?_ ?_ ?_
  · rw [hs1]
    rfl
  · rw [hs2]
    rfl
  · rw [hs3]
    rfl
  · rw [hs4]
    exact oppSpec_shift inpN eO vO lO rO q
  · rw [updateEdgeFields_edgeW_np inpN u ext A0 q _ Hmode]
    show (if u.updateEdgeCreases = true ∧
        (oppSpec (withMaps inpN eO vO lO rO) q != 0) = true then
      mapLookup inpN.edgeCreaseMap (geomEdgeKey A0 q) (.fin 0)
    else edgeWSpec (withMaps inpN eO vO lO rO) q) = edgeWSpec inpN q
    rw [oppSpec_shift inpN eO vO lO rO q]
    rcases hrc : runClassOf inpN q with _ | ⟨p1, _ | ⟨p2, rest2⟩⟩
    · rw [hrc] at hqmem
      simp at hqmem
    · -- a boundary run: no opposite, both specs are infinite
      have hoppv : oppSpec inpN q = 0 := by
        unfold oppSpec
        rw [if_neg hkne, hrc]
      have hewN : edgeWSpec inpN q = .inf := by
        unfold edgeWSpec
        rw [if_neg hkne, hrc]
      have hewO : edgeWSpec (withMaps inpN eO vO lO rO) q = .inf := by
        unfold edgeWSpec
        rw [show keyAt (withMaps inpN eO vO lO rO) q = keyAt inpN q from rfl,
          if_neg hkne,
          show runClassOf (withMaps inpN eO vO lO rO) q = runClassOf inpN q from rfl,
          hrc]
      rw [hoppv, hewN, hewO]
      simp
    · have hrl : rest2.length = 0 := by
        rw [hrc] at hqlen
        simp only [List.length_cons] at hqlen
        omega
      have hrest := List.length_eq_zero.mp hrl
      subst hrest
      have hne12 : p1 ≠ p2 := by
        rw [hrc] at hnodup
        simpa using hnodup
      have hqmem2 : q = p1 ∨ q = p2 := by
        rw [hrc] at hqmem
        simpa using hqmem
      by_cases hwmf : windingMismatch (emitMesh inpN) p1 p2 = true
      · have hoppv : oppSpec inpN q = 0 := by
          unfold oppSpec
          rw [if_neg hkne, hrc]
          simp [hwmf]
        have hewN : edgeWSpec inpN q = .inf := by
          unfold edgeWSpec
          rw [if_neg hkne, hrc]
          simp [hwmf]
        have hewO : edgeWSpec (withMaps inpN eO vO lO rO) q = .inf := by
          unfold edgeWSpec
          rw [show keyAt (withMaps inpN eO vO lO rO) q = keyAt inpN q from rfl,
            if_neg hkne,
            show runClassOf (withMaps inpN eO vO lO rO) q = runClassOf inpN q
              from rfl,
            hrc]
          simp [windingMismatch_shift inpN eO vO lO rO, hwmf]
        rw [hoppv, hewN, hewO]
        simp
      · have hwmn : windingMismatch (emitMesh inpN) p1 p2 = false := by
          simpa using hwmf
        have hoppv : oppSpec inpN q ≠ 0 := by
          unfold oppSpec
          rw [if_neg hkne, hrc]
          rcases hqmem2 with h | h
          · simp only [hwmn, h, Bool.false_eq_true, if_false]
            simp
            omega
          · simp only [hwmn, h, Bool.false_eq_true, if_false]
            simp [Ne.symm hne12]
            omega
        have hewN : edgeWSpec inpN q = (edgeAt inpN q).edge_crease_weight := by
          unfold edgeWSpec
          rw [if_neg hkne, hrc]
          simp [hwmn]
        by_cases huE2 : u.updateEdgeCreases = true
        · rw [if_pos ⟨huE2, by simpa using hoppv⟩, hewN]
          exact (updater_lookup_keys inpN A0 HA0 q hq).1
        · have hec : eO = inpN.edgeCreaseMap := by
            rcases HuE with h | h
            · exact absurd h huE2
            · exact h
          rw [if_neg (by simp [huE2])]
          exact edgeWSpec_shift inpN eO vO lO rO hec q
  · rw [updateEdgeFields_vw_np inpN u ext A0 q _ Hmode]
    show (if u.updateVertexCreases = true ∧
        (edgeAt (withMaps inpN eO vO lO rO) q).vertex_type ≠
          VertexType.NON_MANIFOLD_EDGE_VERTEX then
      (if pinHit inpN.subdiv_mode ext.isCornerP ext.borderP q = true then Weight.inf
       else mapLookup inpN.vertexCreaseMap (hget A0 q).vtx_index (.fin 0))
    else
      if pinHit (withMaps inpN eO vO lO rO).subdiv_mode ext.isCornerP
          ext.borderP q = true then Weight.inf
      else (edgeAt (withMaps inpN eO vO lO rO) q).vertex_crease_weight) =
      (if pinHit inpN.subdiv_mode ext.isCornerP ext.borderP q = true then Weight.inf
       else (edgeAt inpN q).vertex_crease_weight)
    rw [show pinHit (withMaps inpN eO vO lO rO).subdiv_mode ext.isCornerP
        ext.borderP q = pinHit inpN.subdiv_mode ext.isCornerP ext.borderP q
      from rfl]
    by_cases huV2 : u.updateVertexCreases = true
    · rw [if_pos ⟨huV2, by
        rw [show (edgeAt (withMaps inpN eO vO lO rO) q).vertex_type =
          VertexType.REGULAR_VERTEX from rfl]
        decide⟩,
        (updater_lookup_keys inpN A0 HA0 q hq).2]
    · have hvc : vO = inpN.vertexCreaseMap := by
        rcases HuV with h | h
        · exact absurd h huV2
        · exact h
      rw [if_neg (by simp [huV2]),
        edgeAt_vw_congr (withMaps inpN eO vO lO rO) inpN rfl rfl hvc q]
  · rw [updateEdgeFields_level]
    show (if u.updateLevels = true then getEdgeLevel inpN q
      else getEdgeLevel (withMaps inpN eO vO lO rO) q) = getEdgeLevel inpN q
    by_cases huL2 : u.updateLevels = true
    · rw [if_pos huL2]
    · obtain ⟨h1, h2⟩ : lO = inpN.levels ∧ rO = inpN.tessellationRate := by
        rcases HuL with h | h
        · exact absurd h huL2
        · exact h
      rw [if_neg huL2]
      exact getEdgeLevel_congr (withMaps inpN eO vO lO rO) inpN h1 h2 q
  · rw [updateEdgeFields_patch]
  · rw [hs5]
    rfl

/-- C8 (amended): on a manifold, hole-free slot with in-range vertex ids in
any subdivision mode other than pin-all, when the update flags cover every
input that differs from the previous build (levels/rate, edge creases,
vertex creases) and slot 0's array carries the emitted geometry adjacency,
running the updater over the previous build's output produces exactly what
a full rebuild of the slot would produce. -/
theorem c8_update_refines_rebuild (inpN : TopoInput) (eO vO : List (Nat × Weight))
    (lO : Option (List ℚ)) (rO : ℚ) (u : UpdateFlags) (ext : ExternalFns)
    (A0 : List HalfEdge)
    (Hids : ∀ v ∈ inpN.vertexIndices, v < 2 ^ 32 - 1)
    (Hman : ∀ r, r < numHalfEdges inpN → keyAt inpN r ≠ SENTINEL →
      (runClassOf inpN r).length ≤ 2)
    (Hmode : inpN.subdiv_mode ≠ SubdivMode.PIN_ALL)
    (Hholes : inpN.holeSet = [])
    (HuL : u.updateLevels = true ∨ (lO = inpN.levels ∧ rO = inpN.tessellationRate))
    (HuE : u.updateEdgeCreases = true ∨ eO = inpN.edgeCreaseMap)
    (HuV : u.updateVertexCreases = true ∨ vO = inpN.vertexCreaseMap)
    (HA0 : ∀ p, p < numHalfEdges inpN →
      (hget A0 p).vtx_index =
        (edgeAt { inpN with vertexIndices := inpN.vertexIndices0 } p).vtx_index ∧
      (hget A0 p).next_half_edge_ofs =
        (edgeAt { inpN with vertexIndices := inpN.vertexIndices0 } p).next_half_edge_ofs) :
    updateHalfEdges inpN u ext A0
        (calculateHalfEdges (withMaps inpN eO vO lO rO) ext) =
      calculateHalfEdges inpN ext := by
  have hlenAO : (calculateHalfEdges (withMaps inpN eO vO lO rO) ext).length =
      numHalfEdges inpN := length_calculateHalfEdges (withMaps inpN eO vO lO rO) ext
  have hWlen : (updateWeights inpN u ext A0
      (calculateHalfEdges (withMaps inpN eO vO lO rO) ext)).length =
      numHalfEdges inpN := by
    rw [length_updateWeights, hlenAO]
  have hW : ∀ i, i < numHalfEdges inpN →
      hget (updateWeights inpN u ext A0
        (calculateHalfEdges (withMaps inpN eO vO lO rO) ext)) i =
        { hget (pinPhase inpN ext (linkPhase inpN (emitMesh inpN))) i with
            patch_type := ext.patchTypeP
              (patchView (pinPhase (withMaps inpN eO vO lO rO) ext
                (linkPhase (withMaps inpN eO vO lO rO)
                  (emitMesh (withMaps inpN eO vO lO rO)))))
              (faceOfPos inpN i) } := by
    intro i hi
    rw [hget_updateWeights inpN u ext A0 _ i (by rw [hlenAO]; exact hi)]
    exact updateEdgeFields_char inpN eO vO lO rO u ext A0 Hids Hman Hmode Hholes
      HuL HuE HuV HA0 i hi
  have hview : patchView (updateWeights inpN u ext A0
      (calculateHalfEdges (withMaps inpN eO vO lO rO) ext)) =
      patchView (pinPhase inpN ext (linkPhase inpN (emitMesh inpN))) := by
    refine hget_list_ext _ _ ?_ ?_
    · rw [length_patchView, length_patchView, hWlen, length_pinPhase,
        length_linkPhase]
    · intro i hi
      rw [length_patchView, hWlen] at hi
      rw [hget_patchView _ i (by rw [hWlen]; exact hi),
        hget_patchView _ i (by rw [length_pinPhase, length_linkPhase]; exact hi),
        hW i hi]
  simp only [updateHalfEdges]
  by_cases hflag : u.updateEdgeCreases = true ∨ u.updateVertexCreases = true
  · rw [if_pos hflag]
    refine hget_list_ext _ _ ?_ ?_
    · rw [length_stampPatches, hWlen, length_calculateHalfEdges]
    · intro i hi
      rw [length_stampPatches, hWlen] at hi
      rw [hget_stampPatches inpN ext.patchTypeP _ i (by rw [hWlen]; exact hi),
        hget_calc inpN ext i hi, hW i hi, hview]
  · rw [if_neg hflag]
    have hnor := not_or.mp hflag
    have hec : eO = inpN.edgeCreaseMap := by
      rcases HuE with h | h
      · exact absurd h hnor.1
      · exact h
    have hvc : vO = inpN.vertexCreaseMap := by
      rcases HuV with h | h
      · exact absurd h hnor.2
      · exact h
    have HidsO : ∀ v ∈ (withMaps inpN eO vO lO rO).vertexIndices,
        v < 2 ^ 32 - 1 := Hids
    have HmanO : ∀ r, r < numHalfEdges (withMaps inpN eO vO lO rO) →
        keyAt (withMaps inpN eO vO lO rO) r ≠ SENTINEL →
        (runClassOf (withMaps inpN eO vO lO rO) r).length ≤ 2 := Hman
    have hmodeO : (withMaps inpN eO vO lO rO).subdiv_mode ≠
        SubdivMode.PIN_ALL := Hmode
    have hviewON : patchView (pinPhase (withMaps inpN eO vO lO rO) ext
        (linkPhase (withMaps inpN eO vO lO rO)
          (emitMesh (withMaps inpN eO vO lO rO)))) =
        patchView (pinPhase inpN ext (linkPhase inpN (emitMesh inpN))) := by
      refine hget_list_ext _ _ ?_ ?_
      · simp only [length_patchView, length_pinPhase, length_linkPhase]
        rfl
      · intro i hi
        rw [length_patchView, length_pinPhase, length_linkPhase] at hi
        have hiN : i < numHalfEdges inpN := hi
        rw [hget_patchView _ i
            (by rw [length_pinPhase, length_linkPhase]; exact hi),
          hget_patchView _ i
            (by rw [length_pinPhase, length_linkPhase]; exact hiN),
          pinnedLink_char (withMaps inpN eO vO lO rO) ext HidsO HmanO hmodeO i hi,
          pinnedLink_char inpN ext Hids Hman Hmode i hiN]
        refine halfEdge_fields_ext _ _ rfl rfl rfl ?_ ?_ ?_ rfl rfl rfl
        · exact oppSpec_shift inpN eO vO lO rO i
        · exact edgeWSpec_shift inpN eO vO lO rO hec i
        · show (if pinHit (withMaps inpN eO vO lO rO).subdiv_mode ext.isCornerP
              ext.borderP i = true then Weight.inf
            else (edgeAt (withMaps inpN eO vO lO rO) i).vertex_crease_weight) =
            (if pinHit inpN.subdiv_mode ext.isCornerP ext.borderP i = true
             then Weight.inf else (edgeAt inpN i).vertex_crease_weight)
          rw [show pinHit (withMaps inpN eO vO lO rO).subdiv_mode ext.isCornerP
              ext.borderP i = pinHit inpN.subdiv_mode ext.isCornerP ext.borderP i
            from rfl,
            edgeAt_vw_congr (withMaps inpN eO vO lO rO) inpN rfl rfl hvc i]
    refine hget_list_ext _ _ ?_ ?_
    · rw [hWlen, length_calculateHalfEdges]
    · intro i hi
      rw [hWlen] at hi
      rw [hW i hi, hget_calc inpN ext i hi, hviewON]

/-- Counterexample to the unguarded claim: on a pin-all slot whose inputs
did not change at all (the previous build used the very same registries and
levels), an update pass with the edge-crease flag set does not reproduce the
rebuild: the builder re-pins every edge crease weight to infinite, while the
updater overwrites the pinned weight of every half-edge with an opposite by
the authored registry lookup (here weight 0). -/
theorem c8_counterexample :
    updateHalfEdges meshTwoTriPinAll ⟨true, false, false⟩ extTrivial
        (calculateHalfEdges { meshTwoTriPinAll with
            vertexIndices := meshTwoTriPinAll.vertexIndices0 } extTrivial)
        (calculateHalfEdges (withMaps meshTwoTriPinAll
            meshTwoTriPinAll.edgeCreaseMap meshTwoTriPinAll.vertexCreaseMap
            meshTwoTriPinAll.levels meshTwoTriPinAll.tessellationRate)
          extTrivial) ≠
      calculateHalfEdges meshTwoTriPinAll extTrivial := by
  decide

theorem c8_update_refines_rebuild_witness :
    updateHalfEdges meshTwoTriPinCorners ⟨true, true, true⟩ extPin
        (calculateHalfEdges { meshTwoTriPinCorners with
            vertexIndices := meshTwoTriPinCorners.vertexIndices0 } extPin)
        (calculateHalfEdges (withMaps meshTwoTriPinCorners [] [] none 1) extPin) =
      calculateHalfEdges meshTwoTriPinCorners extPin :=
  c8_update_refines_rebuild meshTwoTriPinCorners [] [] none 1 ⟨true, true, true⟩
    extPin
    (calculateHalfEdges { meshTwoTriPinCorners with
        vertexIndices := meshTwoTriPinCorners.vertexIndices0 } extPin)
    (by decide) (by decide) (by decide) (by decide)
    (Or.inl rfl) (Or.inl rfl) (Or.inl rfl)
    (by decide)

end EmbreeSubdiv
